import Mathlib

/-!
# sm64-nsp: Q32.32 fixed-point engine and frame pacing loop

Shallow embedding of `src/pc/fixed_pt.h` and of the frame loop of
`src/pc/gfx/gfx_nsp.c`.

Conventions of the embedding:

* an `int64_t` / `fix64` value is an `Int` in `[-2^63, 2^63)`; the result of
  every signed operation is brought back into that range by `toInt64`
  (two's complement wrap, the behaviour of the compilers the port targets);
* a `uint64_t` value is a `Nat` below `2^64`; every unsigned operation is
  followed by `% 2^64`;
* `>>` on a signed value is the arithmetic shift (`Int.shiftRight`, rounding
  toward minus infinity), `&`, `|`, `<<`, `>>` on unsigned values are the
  bitwise operations of `Nat` acting on the 64-bit pattern.
-/

namespace FixedPt

/-! ## Machine integers -/

/-- Reinterpretation of an integer as an `int64_t` (two's complement wrap). -/
def toInt64 (x : Int) : Int := (x + 2 ^ 63) % 2 ^ 64 - 2 ^ 63

/-- Reinterpretation of an integer as a `uint64_t` (its 64-bit pattern). -/
def toUInt64 (x : Int) : Nat := (x % 2 ^ 64).toNat

/-- Reinterpretation of an integer as an `int32_t` (two's complement wrap). -/
def toInt32 (x : Int) : Int := (x + 2 ^ 31) % 2 ^ 32 - 2 ^ 31

/-- Range of the type `int64_t`, hence of `fix64`. -/
def InInt64 (x : Int) : Prop := -2 ^ 63 ≤ x ∧ x < 2 ^ 63

/-- Range of the type `int32_t`. -/
def InInt32 (x : Int) : Prop := -2 ^ 31 ≤ x ∧ x < 2 ^ 31

instance (x : Int) : Decidable (InInt64 x) := by
  unfold InInt64; infer_instance

instance (x : Int) : Decidable (InInt32 x) := by
  unfold InInt32; infer_instance

/-! ## Macros of `fixed_pt.h` -/

/-- The macro `FRAC_WIDTH`. -/
def FRAC_WIDTH : Nat := 32

/-- The macro `GET_INT(fix)`: `(fix) >> FRAC_WIDTH` on a signed 64-bit value. -/
def GET_INT (fix : Int) : Int := fix >>> FRAC_WIDTH

/-- The macro `GET_FRAC(fix)`: `(fix) & ((1LL << FRAC_WIDTH) - 1)`, the bitwise
and of the 64-bit pattern of `fix` with the mask. -/
def GET_FRAC (fix : Int) : Int := ((toUInt64 fix &&& ((1 <<< FRAC_WIDTH) - 1) : Nat) : Int)

/-- The macro `FIX_ONE`: `1LL << FRAC_WIDTH`. -/
def FIX_ONE : Int := ((1 <<< FRAC_WIDTH : Nat) : Int)

/-- The macro `FIX_ONE_HALF`: `1LL << (FRAC_WIDTH - 1)`. -/
def FIX_ONE_HALF : Int := ((1 <<< (FRAC_WIDTH - 1) : Nat) : Int)

/-- The macro `FIX_MAX`: `(fix64)((1ULL << 63) - 1)`. -/
def FIX_MAX : Int := toInt64 (((1 <<< 63) - 1 : Nat) : Int)

/-- The macro `FIX_MIN`: `(fix64)(1ULL << 63)`. -/
def FIX_MIN : Int := toInt64 ((1 <<< 63 : Nat) : Int)

/-- The macro `FIX_2_INT(fix)`: `(fix) >> FRAC_WIDTH`, non rounding. -/
def FIX_2_INT (fix : Int) : Int := fix >>> FRAC_WIDTH

/-- The macro `INT_2_FIX(num)`: `(fix64)(num) << FRAC_WIDTH`. -/
def INT_2_FIX (num : Int) : Int := toInt64 (toInt64 num * 2 ^ FRAC_WIDTH)

/-! ## `fix_mult` -/

/-- The function `fix_mult`: the four half products, summed in `uint64_t`
(the first summand is unsigned, so the usual arithmetic conversions make the
whole sum unsigned) and returned as `fix64`. -/
def fix_mult (fix1 fix2 : Int) : Int :=
  let i1 := GET_INT fix1
  let f1 := GET_FRAC fix1
  let i2 := GET_INT fix2
  let f2 := GET_FRAC fix2
  -- ((uint64_t) f1 * f2) >> 32
  let ff : Nat := ((toUInt64 f1 * toUInt64 f2) % 2 ^ 64) >>> 32
  -- (int64_t) (i1 * i2) << 32
  let ii : Int := toInt64 (toInt64 (toInt64 (i1 * i2)) * 2 ^ 32)
  -- i1 * f2 and i2 * f1
  let c1 : Int := toInt64 (i1 * f2)
  let c2 : Int := toInt64 (i2 * f1)
  toInt64 ((((((ff + toUInt64 ii) % 2 ^ 64) + toUInt64 c1) % 2 ^ 64 + toUInt64 c2) % 2 ^ 64 : Nat) : Int)

/-- The function `fix_mult_i64`: the product of the integer halves and the
shifted sum of the two mixed products, each converted to `int32_t` and added
in `int`; the result type is `int32_t`. -/
def fix_mult_i64 (fix1 fix2 : Int) : Int :=
  let i1 := GET_INT fix1
  let f1 := GET_FRAC fix1
  let i2 := GET_INT fix2
  let f2 := GET_FRAC fix2
  -- (int32_t) i1 * (int32_t) i2
  let ii : Int := toInt32 (toInt32 i1 * toInt32 i2)
  -- (int32_t) ((i1 * f2 + i2 * f1) >> 32)
  let cc : Int := toInt32 (toInt64 (toInt64 (i1 * f2) + toInt64 (i2 * f1)) >>> (32 : Nat))
  toInt32 (ii + cc)

/-- The function `fix_mult_i32`: both operands shifted down to 16 fractional
bits, multiplied in `int64_t`, shifted right by 32 and returned as `int32_t`. -/
def fix_mult_i32 (fix1 fix2 : Int) : Int :=
  toInt32 (toInt64 ((fix1 >>> (16 : Nat)) * (fix2 >>> (16 : Nat))) >>> (32 : Nat))

/-! ## `fix_clz64` (manual fallback branch) -/

/-- One test of the binary search in `fix_clz64`, on the pair `(n, x)`:
`if (x <= limit) { n += k; x <<= k; }`. -/
def clzStep (limit k : Nat) (s : Nat × Nat) : Nat × Nat :=
  if s.2 ≤ limit then (s.1 + k, (s.2 <<< k) % 2 ^ 64) else s

/-- The function `fix_clz64`, branch taken when no compiler intrinsic is
available: a binary search over the halves of the word. The last test only
updates `n`. -/
def fix_clz64 (x : Nat) : Nat :=
  if x = 0 then 64
  else
    let s : Nat × Nat := (0, x)
    let s := clzStep 0x00000000FFFFFFFF 32 s
    let s := clzStep 0x0000FFFFFFFFFFFF 16 s
    let s := clzStep 0x00FFFFFFFFFFFFFF 8 s
    let s := clzStep 0x0FFFFFFFFFFFFFFF 4 s
    let s := clzStep 0x3FFFFFFFFFFFFFFF 2 s
    if s.2 ≤ 0x7FFFFFFFFFFFFFFF then s.1 + 1 else s.1

/-! ## `fix_div_s` -/

/-- One pass through the body of the long-division loop of `fix_div_s`, on
the pair `(rem, quot_lo)`. -/
def divStep (b : Nat) (s : Nat × Nat) : Nat × Nat :=
  let rem := (s.1 <<< 1) % 2 ^ 64
  let quot_lo := (s.2 <<< 1) % 2 ^ 64
  if rem ≥ b then (rem - b, quot_lo ||| 1) else (rem, quot_lo)

/-- The loop `for (int i = 0; i < 32; i++)` of `fix_div_s`: the body is run
`n` times. -/
def divLoop (b : Nat) : Nat → Nat × Nat → Nat × Nat
  | 0, s => s
  | n + 1, s => divLoop b n (divStep b s)

/-- The function `fix_div_s`. -/
def fix_div_s (num denom : Int) : Int :=
  if denom = 0 then
    (if num ≥ 0 then FIX_MAX else FIX_MIN)
  else
    let neg : Nat := 0
    let a : Nat := toUInt64 num
    let b : Nat := toUInt64 denom
    -- if (num < 0) { a = (uint64_t) (-(int64_t) a); neg ^= 1; }
    let a := if num < 0 then toUInt64 (toInt64 (-(toInt64 a))) else a
    let neg := if num < 0 then neg ^^^ 1 else neg
    -- if (denom < 0) { b = (uint64_t) (-(int64_t) b); neg ^= 1; }
    let b := if denom < 0 then toUInt64 (toInt64 (-(toInt64 b))) else b
    let neg := if denom < 0 then neg ^^^ 1 else neg
    let quot_hi : Nat := a / b
    let rem : Nat := a % b
    let quot_lo : Nat := (divLoop b 32 (rem, 0)).2
    let result : Int := toInt64 ((((quot_hi <<< 32) % 2 ^ 64) ||| quot_lo : Nat) : Int)
    if neg ≠ 0 then toInt64 (-result) else result

/-! ## `fix_recip` -/

/-- One Newton-Raphson block of `fix_recip`, mapping the old `x` to the new
one: `dx_hi`, `two_minus_dx = ~dx_hi + 1`, the product of the high halves and
the final `x <<= 1`. -/
def recipStep (dn x : Nat) : Nat :=
  let dx_hi := ((dn >>> 32) * (x >>> 32)) % 2 ^ 64
  let two_minus_dx := ((0xFFFFFFFFFFFFFFFF - dx_hi) + 1) % 2 ^ 64
  let x := ((x >>> 32) * (two_minus_dx >>> 32)) % 2 ^ 64
  (x <<< 1) % 2 ^ 64

/-- The function `fix_recip`. -/
def fix_recip (denom : Int) : Int :=
  if denom = 0 then FIX_MAX
  else if denom = FIX_ONE then FIX_ONE
  else if denom = -FIX_ONE then -FIX_ONE
  else
    let neg : Nat := 0
    let d : Nat := toUInt64 denom
    -- if (denom < 0) { d = (uint64_t) (-(int64_t) d); neg = 1; }
    let d := if denom < 0 then toUInt64 (toInt64 (-(toInt64 d))) else d
    let neg := if denom < 0 then 1 else neg
    let shift : Nat := fix_clz64 d
    let dn : Nat := (d <<< shift) % 2 ^ 64
    let x : Nat := ((0xFFFFFFFFFFFFFFFF / dn) + 1) % 2 ^ 64
    let x := recipStep dn x
    let x := recipStep dn x
    let rshift : Int := 32 - (shift : Int)
    let result : Int :=
      if rshift ≥ 0 then toInt64 ((x >>> rshift.toNat : Nat) : Int)
      else toInt64 (((x <<< (-rshift).toNat) % 2 ^ 64 : Nat) : Int)
    if neg ≠ 0 then toInt64 (-result) else result

/-! ## Reference quotient -/

/-- The exact quotient `num * 2^32 / denom` truncated toward zero, as a
mathematical integer: the magnitude `floor(|num| * 2^32 / |denom|)` with the
sign of the real quotient. -/
def truncQuot (num denom : Int) : Int :=
  if (num < 0 ↔ denom < 0) then ((num.natAbs * 2 ^ 32 / denom.natAbs : Nat) : Int)
  else -((num.natAbs * 2 ^ 32 / denom.natAbs : Nat) : Int)

end FixedPt

/-! ## The frame loop of `gfx_nsp.c` -/

namespace GfxNsp

/-- Reinterpretation of an integer as an `int` (32-bit two's complement). -/
def toInt32 (x : Int) : Int := (x + 2 ^ 31) % 2 ^ 32 - 2 ^ 31

/-- Reinterpretation of an integer as a `uint32_t`. -/
def toUInt32 (x : Int) : Nat := (x % 2 ^ 32).toNat

/-- The file-scope variables `frames_now`, `frames_prev` and `skip_frame`,
together with a record of what the callback has seen: `calls` holds, for every
invocation of `run_one_game_iter` so far and in order, the value of
`skip_frame` during that invocation (`nsp_start_frame()` returns its
negation). -/
structure LoopState where
  frames_now : Nat
  frames_prev : Nat
  skip_frame : Bool
  calls : List Bool
  deriving DecidableEq

/-- The variables as the C initialisers leave them, before any callback. -/
def initState : LoopState := ⟨0, 0, false, []⟩

/-- The first two statements of the body of the render loop, with counter `i`:
`skip_frame = i < to_skip;` and the call `run_one_game_iter();`, which is
recorded in `calls` with the value of `skip_frame` it sees. -/
def renderStep (to_skip : Int) (i : Int) (s : LoopState) : LoopState :=
  let s := { s with skip_frame := decide (i < to_skip) }
  { s with calls := s.calls ++ [s.skip_frame] }

/-- The loop `for (int i = 0; i < to_skip + 1; ++i)` of `nsp_main_loop`, entered
with counter `i`. `esc k` is the answer of `isKeyPressed(KEY_NSPIRE_ESC)` at
the poll that follows the invocation with counter `k`. The Boolean of the
result tells whether the `return` was taken. The first argument bounds the
number of passes still allowed; `to_skip + 1 - i` passes are always enough
(`renderLoop_fuel`). -/
def renderLoop (to_skip : Int) (esc : Nat → Bool) : Nat → Int → LoopState → LoopState × Bool
  | 0, _, s => (s, false)
  | fuel + 1, i, s =>
    if i < toInt32 (to_skip + 1) then
      if esc i.toNat then (renderStep to_skip i s, true)
      else renderLoop to_skip esc fuel (toInt32 (i + 1)) (renderStep to_skip i s)
    else (s, false)

/-- The declaration
`int to_skip = (new_frames > configFrameskip) ? configFrameskip : (new_frames - 1);`
the conditional is evaluated in `unsigned int` and converted to `int`. -/
def toSkip (configFrameskip new_frames : Nat) : Int :=
  toInt32 ((if new_frames > configFrameskip then configFrameskip
            else toUInt32 ((new_frames : Int) - 1) : Nat) : Int)

/-- Number of passes granted to the render loop started at `i = 0`: the value
of its bound `to_skip + 1`. Irreducible, so that elaboration never tries to
run the loop on a symbolic bound. -/
@[irreducible] def loopFuel (to_skip : Int) : Nat := (toInt32 (to_skip + 1)).toNat

/-- The block guarded by `if (new_frames)`: the declaration of `to_skip` and the
render loop started at `i = 0`. -/
def renderBatch (configFrameskip new_frames : Nat) (esc : Nat → Bool) (s : LoopState) :
    LoopState × Bool :=
  renderLoop (toSkip configFrameskip new_frames) esc
    (loopFuel (toSkip configFrameskip new_frames)) 0 s

/-- One pass through the body of `while (true)` in `nsp_main_loop`. `now_ms` is
the value of `tmr_ms()` read at the top of the body; `configFrameskip` is the
configuration variable. Both are declared in headers outside `gfx_nsp.c`: the
code stores `tmr_ms()` in a `uint32_t` and prints it with `%lu`, and prints
`configFrameskip` with `%u`, so both are taken as unsigned 32-bit values. The
diagnostic screen shown while CTRL is held touches only the console and the
timer and is left out. -/
def tick (configFrameskip : Nat) (now_ms : Nat) (esc : Nat → Bool) (s : LoopState) :
    LoopState × Bool :=
  -- frames_now = tmr_ms() / 33;
  let s := { s with frames_now := (now_ms / 33) % 2 ^ 32 }
  -- uint32_t new_frames = frames_now - frames_prev;
  let new_frames : Nat := toUInt32 ((s.frames_now : Int) - (s.frames_prev : Int))
  if new_frames ≠ 0 then
    let r := renderBatch configFrameskip new_frames esc s
    -- `return` taken inside the loop
    if r.2 then r
    -- frames_prev = frames_now;
    else ({ r.1 with frames_prev := r.1.frames_now }, false)
  else ({ s with frames_prev := s.frames_now }, false)

/-- What one pass of the loop reads from outside: the clock and the ESC key. -/
structure TickInput where
  now_ms : Nat
  esc : Nat → Bool

/-- The input of a pass during which ESC is not pressed. -/
def quietInput (now_ms : Nat) : TickInput := ⟨now_ms, fun _ => false⟩

/-- The loop `while (true)` of `nsp_main_loop` run on the given inputs, one per
pass, until they are used up or the function returns. -/
def mainLoop (configFrameskip : Nat) : List TickInput → LoopState → LoopState × Bool
  | [], s => (s, false)
  | inp :: rest, s =>
    let r := tick configFrameskip inp.now_ms inp.esc s
    if r.2 then r else mainLoop configFrameskip rest r.1

/-! ## Pixel conversion and the display buffer -/

/-- Modelled from the spec: the macro `SCREEN_WIDTH`, defined in a header
outside `gfx_nsp.c`; the display is initialised as `SCR_320x240_565`. -/
def SCREEN_WIDTH : Nat := 320

/-- Modelled from the spec: the macro `SCREEN_HEIGHT`, defined in a header
outside `gfx_nsp.c`; the display is initialised as `SCR_320x240_565`. -/
def SCREEN_HEIGHT : Nat := 240

/-- The macro `HALF_WIDTH`, which expands to `SCREEN_WIDTH / 2`. -/
def HALF_WIDTH : Nat := SCREEN_WIDTH / 2

/-- The macro `HALF_HEIGHT`, which expands to `SCREEN_HEIGHT / 2`. -/
def HALF_HEIGHT : Nat := SCREEN_HEIGHT / 2

/-- The function `nsp_get_dimensions`: the pair `(*width, *height)` it stores. -/
def nsp_get_dimensions (config80pMode config120pMode : Bool) : Nat × Nat :=
  if config80pMode then (SCREEN_WIDTH / 4, SCREEN_HEIGHT / 4)
  else if config120pMode then (HALF_WIDTH, HALF_HEIGHT)
  else (SCREEN_WIDTH, SCREEN_HEIGHT)

/-- The function `c4444_to_c565`, on a `uint32_t` pixel, computed in
`uint32_t` and returned as `uint16_t`. -/
def c4444_to_c565 (c : Nat) : Nat :=
  ((((c &&& 0b11111000) <<< 8) % 2 ^ 32) ||| ((c &&& 0b1111110000000000) >>> 5)
    ||| ((c >>> 19) &&& 0b11111)) % 2 ^ 16

/-- A counted loop `for (int i = start; i < bound; i += step) body`, entered
with counter `i`; the first argument bounds the number of passes still
allowed, and `bound` passes are always enough when `step` is positive. -/
def forLoop {σ : Type} (bound step : Nat) (body : Nat → σ → σ) : Nat → Nat → σ → σ
  | 0, _, st => st
  | fuel + 1, i, st =>
    if i < bound then forLoop bound step body fuel (i + step) (body i st) else st

/-- Read of `buffer[j]`, the buffer being an array of `uint16_t` values. -/
def rd (buffer : Array Nat) (j : Nat) : Nat := buffer.getD j 0

/-- The assignment `buffer[j] = v`. -/
def wr (buffer : Array Nat) (j v : Nat) : Array Nat := buffer.setD j v

/-- A store `p[0] = w` through a `uint32_t *p` aimed at `&buffer[idx]`: the two
halves of the word land in `buffer[idx]` and `buffer[idx + 1]`, low half
first. Every word stored by `nsp_swap_buffers_end` has equal halves. -/
def store32 (buffer : Array Nat) (idx : Nat) (w : Nat) : Array Nat :=
  wr (wr buffer idx (w % 2 ^ 16)) (idx + 1) ((w >>> 16) % 2 ^ 16)

/-- The call `memcpy(&buffer[dst], &buffer[src], bytes)` on the `uint16_t`
buffer: `bytes / 2` elements are copied, each read from the buffer as it was
at the call; the two ranges never overlap here. -/
def memcpy16 (buffer : Array Nat) (dst src bytes : Nat) : Array Nat :=
  forLoop (bytes / 2) 1 (fun t b => wr b (dst + t) (rd buffer (src + t))) (bytes / 2) 0 buffer

/-- The branch `if (config80pMode)` of `nsp_swap_buffers_end`, on the pair
`(buffer, img_pix)`. -/
def swap80 (gfx_output : Nat → Nat) (buffer : Array Nat) : Array Nat × Nat :=
  let src_w := SCREEN_WIDTH / 4
  forLoop (SCREEN_HEIGHT / 4) 1 (fun row st =>
    let base := row * 4 * SCREEN_WIDTH
    let st := forLoop src_w 1 (fun col st =>
      let c16 := c4444_to_c565 (gfx_output st.2)
      let c32 := ((c16 <<< 16) % 2 ^ 32) ||| c16
      let x := col * 4
      -- row0[0] = c32; row0[1] = c32; row1[0] = c32; row1[1] = c32;
      let b := store32 st.1 (base + x) c32
      let b := store32 b (base + x + 2) c32
      let b := store32 b (base + SCREEN_WIDTH + x) c32
      let b := store32 b (base + SCREEN_WIDTH + x + 2) c32
      (b, st.2 + 1)) src_w 0 st
    let b := memcpy16 st.1 (base + 2 * SCREEN_WIDTH) base (SCREEN_WIDTH * 2)
    let b := memcpy16 b (base + 3 * SCREEN_WIDTH) base (SCREEN_WIDTH * 2)
    (b, st.2)) (SCREEN_HEIGHT / 4) 0 (buffer, 0)

/-- The branch `else if (config120pMode)` of `nsp_swap_buffers_end`, on the
pair `(buffer, img_pix)`. -/
def swap120 (gfx_output : Nat → Nat) (buffer : Array Nat) : Array Nat × Nat :=
  let src_w := HALF_WIDTH
  forLoop (SCREEN_HEIGHT / 2) 1 (fun row st =>
    let base := row * 2 * SCREEN_WIDTH
    let st := forLoop src_w 2 (fun col st =>
      let c16a := c4444_to_c565 (gfx_output st.2)
      let c16b := c4444_to_c565 (gfx_output (st.2 + 1))
      let pair_a := ((c16a <<< 16) % 2 ^ 32) ||| c16a
      let pair_b := ((c16b <<< 16) % 2 ^ 32) ||| c16b
      let x := col * 2
      -- dst[0] = pair_a; dst[1] = pair_b;
      let b := store32 st.1 (base + x) pair_a
      let b := store32 b (base + x + 2) pair_b
      (b, st.2 + 2)) src_w 0 st
    let b := memcpy16 st.1 (base + SCREEN_WIDTH) base (SCREEN_WIDTH * 2)
    (b, st.2)) (SCREEN_HEIGHT / 2) 0 (buffer, 0)

/-- The last branch of `nsp_swap_buffers_end`: one pixel per element. -/
def swapFull (gfx_output : Nat → Nat) (buffer : Array Nat) : Array Nat :=
  forLoop (SCREEN_WIDTH * SCREEN_HEIGHT) 1 (fun i b => wr b i (c4444_to_c565 (gfx_output i)))
    (SCREEN_WIDTH * SCREEN_HEIGHT) 0 buffer

/-- The function `nsp_swap_buffers_end`: the contents of the static `buffer`
(`SCREEN_WIDTH * SCREEN_HEIGHT` elements) handed to `lcd_blit`, from the
contents it had on entry. `gfx_output` is the array of source pixels, declared
outside `gfx_nsp.c`. -/
def nsp_swap_buffers_end (config80pMode config120pMode : Bool) (gfx_output : Nat → Nat)
    (buffer : Array Nat) : Array Nat :=
  if config80pMode then (swap80 gfx_output buffer).1
  else if config120pMode then (swap120 gfx_output buffer).1
  else swapFull gfx_output buffer

end GfxNsp

/-! # Proofs -/

namespace FixedPt

/-! ## Machine integer facts -/

/-- The wrap to `int64_t` lands in the range of the type. -/
theorem inInt64_toInt64 (x : Int) : InInt64 (toInt64 x) := by
  unfold InInt64 toInt64
  omega

/-- The wrap to `int64_t` preserves the residue modulo `2^64`. -/
theorem toInt64_modEq (x : Int) : toInt64 x ≡ x [ZMOD 2 ^ 64] := by
  unfold Int.ModEq toInt64
  omega

/-- The bit pattern preserves the residue modulo `2^64`. -/
theorem toUInt64_modEq (x : Int) : ((toUInt64 x : Nat) : Int) ≡ x [ZMOD 2 ^ 64] := by
  unfold Int.ModEq toUInt64
  omega

/-- The wrap to `int64_t` depends on the residue modulo `2^64` only. -/
theorem toInt64_congr {x y : Int} (h : x ≡ y [ZMOD 2 ^ 64]) : toInt64 x = toInt64 y := by
  unfold Int.ModEq at h
  unfold toInt64
  omega

/-- The wrap to `int64_t` fixes the values of the type. -/
theorem toInt64_of_inInt64 {x : Int} (h : InInt64 x) : toInt64 x = x := by
  unfold InInt64 at h
  unfold toInt64
  omega

/-- The bit pattern, read as an integer, is the residue modulo `2^64`. -/
theorem toUInt64_cast (x : Int) : ((toUInt64 x : Nat) : Int) = x % 2 ^ 64 := by
  unfold toUInt64
  omega

/-- The integer part is the quotient by `2^32`, rounded down. -/
theorem GET_INT_eq (x : Int) : GET_INT x = x / 2 ^ 32 := by
  simp [GET_INT, FRAC_WIDTH, Int.shiftRight_eq_div_pow]

/-- The fractional part is the residue modulo `2^32`. -/
theorem GET_FRAC_eq (x : Int) : GET_FRAC x = x % 2 ^ 32 := by
  unfold GET_FRAC FRAC_WIDTH
  have : (1 <<< 32 : Nat) = 2 ^ 32 := by decide
  rw [this, Nat.and_pow_two_sub_one_eq_mod]
  unfold toUInt64
  omega

/-! ## Multiplication -/

/-- Splitting both factors into halves: the quotient of the full product by
`2^32` is the sum of the four half products. -/
theorem mul_ediv_split (a b : Int) :
    a * b / 2 ^ 32 =
      (a / 2 ^ 32) * (b / 2 ^ 32) * 2 ^ 32 + (a / 2 ^ 32) * (b % 2 ^ 32)
        + (b / 2 ^ 32) * (a % 2 ^ 32) + (a % 2 ^ 32) * (b % 2 ^ 32) / 2 ^ 32 := by
  have ha := Int.ediv_add_emod a (2 ^ 32)
  have hb := Int.ediv_add_emod b (2 ^ 32)
  generalize a / 2 ^ 32 = i1 at *
  generalize a % 2 ^ 32 = f1 at *
  generalize b / 2 ^ 32 = i2 at *
  generalize b % 2 ^ 32 = f2 at *
  subst ha hb
  have : (2 ^ 32 * i1 + f1) * (2 ^ 32 * i2 + f2)
      = f1 * f2 + (i1 * i2 * 2 ^ 32 + i1 * f2 + i2 * f1) * 2 ^ 32 := by ring
  rw [this, Int.add_mul_ediv_right _ _ (by norm_num)]
  ring

/-- The first summand of `fix_mult`: the product of the fractional halves fits
64 bits, so its shifted word is the quotient by `2^32`. -/
theorem frac_product_word (f1 f2 : Int) (h1 : 0 ≤ f1 ∧ f1 < 2 ^ 32)
    (h2 : 0 ≤ f2 ∧ f2 < 2 ^ 32) (hff : 0 ≤ f1 * f2 ∧ f1 * f2 < 2 ^ 64) :
    (((toUInt64 f1 * toUInt64 f2) % 2 ^ 64) >>> 32 : Nat) = (f1 * f2 / 2 ^ 32).toNat := by
  rw [Nat.shiftRight_eq_div_pow]
  have e1 : ((toUInt64 f1 * toUInt64 f2 : Nat) : Int) = f1 * f2 := by
    push_cast
    rw [toUInt64_cast, toUInt64_cast, Int.emod_eq_of_lt (by omega) (by omega),
      Int.emod_eq_of_lt (by omega) (by omega)]
  generalize toUInt64 f1 * toUInt64 f2 = n at e1
  generalize f1 * f2 = t at *
  omega

/-- The unsigned sum of the four words of `fix_mult`, with every intermediate
wrap, is congruent to the sum of the four half products. -/
theorem sum_words (t p q r : Int) (hff : 0 ≤ t ∧ t < 2 ^ 64) :
    toInt64
        ((((((t / 2 ^ 32).toNat +
              toUInt64 (toInt64 (toInt64 (toInt64 p) * 2 ^ 32))) % 2 ^ 64 +
            toUInt64 (toInt64 q)) % 2 ^ 64 +
          toUInt64 (toInt64 r)) % 2 ^ 64 : Nat) : Int) =
      toInt64 (p * 2 ^ 32 + q + r + t / 2 ^ 32) := by
  apply toInt64_congr
  have hA : (((t / 2 ^ 32).toNat : Nat) : Int) = t / 2 ^ 32 := by omega
  have h1 : ((toUInt64 (toInt64 (toInt64 (toInt64 p) * 2 ^ 32)) : Nat) : Int)
      ≡ p * 2 ^ 32 [ZMOD 2 ^ 64] :=
    ((toUInt64_modEq _).trans (toInt64_modEq _)).trans
      (((toInt64_modEq _).trans (toInt64_modEq _)).mul_right _)
  have h2 : ((toUInt64 (toInt64 q) : Nat) : Int) ≡ q [ZMOD 2 ^ 64] :=
    (toUInt64_modEq _).trans (toInt64_modEq _)
  have h3 : ((toUInt64 (toInt64 r) : Nat) : Int) ≡ r [ZMOD 2 ^ 64] :=
    (toUInt64_modEq _).trans (toInt64_modEq _)
  simp only [Nat.cast_add, Int.natCast_mod, Nat.cast_pow, Nat.cast_ofNat]
  rw [hA]
  refine (Int.mod_modEq _ _).trans ?_
  refine (((Int.mod_modEq _ _).trans (((Int.mod_modEq _ _).trans
    ((Int.ModEq.refl _).add h1)).add h2)).add h3).trans ?_
  have : t / 2 ^ 32 + p * 2 ^ 32 + q + r = p * 2 ^ 32 + q + r + t / 2 ^ 32 := by ring
  rw [this]

/-- The result of `fix_mult` is the quotient of the exact product by `2^32`,
wrapped to `int64_t`. -/
theorem fix_mult_eq (a b : Int) : fix_mult a b = toInt64 (a * b / 2 ^ 32) := by
  rw [mul_ediv_split]
  unfold fix_mult
  simp only [GET_INT_eq, GET_FRAC_eq]
  have h1 : 0 ≤ a % 2 ^ 32 ∧ a % 2 ^ 32 < 2 ^ 32 := by omega
  have h2 : 0 ≤ b % 2 ^ 32 ∧ b % 2 ^ 32 < 2 ^ 32 := by omega
  have hff : 0 ≤ a % 2 ^ 32 * (b % 2 ^ 32) ∧ a % 2 ^ 32 * (b % 2 ^ 32) < 2 ^ 64 := by
    constructor
    · exact Int.mul_nonneg h1.1 h2.1
    · nlinarith
  have hu := frac_product_word _ _ h1 h2 hff
  have hfin := sum_words (a % 2 ^ 32 * (b % 2 ^ 32)) (a / 2 ^ 32 * (b / 2 ^ 32))
    (a / 2 ^ 32 * (b % 2 ^ 32)) (b / 2 ^ 32 * (a % 2 ^ 32)) hff
  rw [← hu] at hfin
  exact hfin

/-! ## Leading zero count -/

/-- Effect of one test of the binary search: the word stays `x` shifted by the
count, and its top set bit moves into the upper part of the window. -/
theorem clzStep_spec (x k limit : Nat) (s : Nat × Nat) (hk : 2 * k ≤ 64)
    (hL : limit = 2 ^ (64 - k) - 1)
    (hinv : s.2 = x * 2 ^ s.1) (hlo : 2 ^ (64 - 2 * k) ≤ s.2) (hhi : s.2 < 2 ^ 64) :
    (clzStep limit k s).2 = x * 2 ^ (clzStep limit k s).1 ∧
      2 ^ (64 - k) ≤ (clzStep limit k s).2 ∧
      (clzStep limit k s).2 < 2 ^ 64 ∧
      (clzStep limit k s).1 ≤ s.1 + k := by
  subst hL
  have hpos : 0 < 2 ^ (64 - k) := Nat.pos_pow_of_pos _ (by norm_num)
  have hsplit : 2 ^ (64 - k) * 2 ^ k = 2 ^ 64 := by
    rw [← pow_add]; congr 1; omega
  have hsplit2 : 2 ^ (64 - 2 * k) * 2 ^ k = 2 ^ (64 - k) := by
    rw [← pow_add]; congr 1; omega
  unfold clzStep
  by_cases hc : s.2 ≤ 2 ^ (64 - k) - 1
  · rw [if_pos hc]
    have hlt : s.2 * 2 ^ k < 2 ^ 64 := by
      rw [← hsplit]
      exact Nat.mul_lt_mul_of_pos_right (by omega) (Nat.pos_pow_of_pos _ (by norm_num))
    simp only [Nat.shiftLeft_eq, Nat.mod_eq_of_lt hlt]
    refine ⟨?_, ?_, hlt, le_refl _⟩
    · rw [hinv, pow_add, Nat.mul_assoc]
    · rw [← hsplit2]
      exact Nat.mul_le_mul_right _ hlo
  · rw [if_neg hc]
    exact ⟨hinv, by omega, hhi, by omega⟩

/-- Shifting a nonzero 64-bit word left by its leading zero count puts its top
set bit at bit 63. -/
theorem clz_normalises (x : Nat) (hx : x < 2 ^ 64) (h0 : x ≠ 0) :
    fix_clz64 x ≤ 63 ∧ 2 ^ 63 ≤ x * 2 ^ fix_clz64 x ∧ x * 2 ^ fix_clz64 x < 2 ^ 64 := by
  unfold fix_clz64
  rw [if_neg h0]
  simp only []
  have h1 := clzStep_spec x 32 0x00000000FFFFFFFF (0, x) (by norm_num) (by norm_num)
    (by simp) (by simp; omega) hx
  generalize clzStep 0x00000000FFFFFFFF 32 (0, x) = s1 at h1 ⊢
  obtain ⟨a1, b1, c1, d1⟩ := h1
  have h2 := clzStep_spec x 16 0x0000FFFFFFFFFFFF s1 (by norm_num) (by norm_num) a1
    (by simpa using b1) c1
  generalize clzStep 0x0000FFFFFFFFFFFF 16 s1 = s2 at h2 ⊢
  obtain ⟨a2, b2, c2, d2⟩ := h2
  have h3 := clzStep_spec x 8 0x00FFFFFFFFFFFFFF s2 (by norm_num) (by norm_num) a2
    (by simpa using b2) c2
  generalize clzStep 0x00FFFFFFFFFFFFFF 8 s2 = s3 at h3 ⊢
  obtain ⟨a3, b3, c3, d3⟩ := h3
  have h4 := clzStep_spec x 4 0x0FFFFFFFFFFFFFFF s3 (by norm_num) (by norm_num) a3
    (by simpa using b3) c3
  generalize clzStep 0x0FFFFFFFFFFFFFFF 4 s3 = s4 at h4 ⊢
  obtain ⟨a4, b4, c4, d4⟩ := h4
  have h5 := clzStep_spec x 2 0x3FFFFFFFFFFFFFFF s4 (by norm_num) (by norm_num) a4
    (by simpa using b4) c4
  generalize clzStep 0x3FFFFFFFFFFFFFFF 2 s4 = s5 at h5 ⊢
  obtain ⟨a5, b5, c5, d5⟩ := h5
  simp only [Prod.fst] at d1
  norm_num at b5
  by_cases hc : s5.2 ≤ 0x7FFFFFFFFFFFFFFF
  · rw [if_pos hc]
    have e : x * 2 ^ (s5.1 + 1) = s5.2 * 2 := by rw [a5, pow_succ, Nat.mul_assoc]
    rw [e]
    refine ⟨by omega, by omega, by omega⟩
  · rw [if_neg hc]
    refine ⟨by omega, ?_, ?_⟩
    · rw [← a5]; omega
    · rw [← a5]; omega

/-- The leading zero count locates the top set bit of a nonzero 64-bit word. -/
theorem clz_bounds (x : Nat) (hx : x < 2 ^ 64) (h0 : x ≠ 0) :
    fix_clz64 x ≤ 63 ∧ 2 ^ (63 - fix_clz64 x) ≤ x ∧ x < 2 ^ (64 - fix_clz64 x) := by
  obtain ⟨hn, hlo, hhi⟩ := clz_normalises x hx h0
  generalize fix_clz64 x = n at *
  have hp : 0 < 2 ^ n := Nat.pos_pow_of_pos _ (by norm_num)
  have e1 : 2 ^ (63 - n) * 2 ^ n = 2 ^ 63 := by
    rw [← pow_add]; congr 1; omega
  have e2 : 2 ^ (64 - n) * 2 ^ n = 2 ^ 64 := by
    rw [← pow_add]; congr 1; omega
  refine ⟨hn, ?_, ?_⟩
  · rw [← e1] at hlo
    exact Nat.le_of_mul_le_mul_right hlo hp
  · rw [← e2] at hhi
    exact Nat.lt_of_mul_lt_mul_right hhi

/-! ## Long division -/

/-- One pass of the long division doubles `quot_lo * b + rem`, keeps the
remainder below the divisor and appends one bit to the quotient. -/
theorem divStep_spec (b : Nat) (s : Nat × Nat) (hb : b ≤ 2 ^ 63) (hr : s.1 < b)
    (hq : s.2 < 2 ^ 63) :
    (divStep b s).2 * b + (divStep b s).1 = (s.2 * b + s.1) * 2 ∧ (divStep b s).1 < b ∧
      (divStep b s).2 ≤ 2 * s.2 + 1 := by
  unfold divStep
  have e1 : (s.1 <<< 1) % 2 ^ 64 = s.1 * 2 := by
    rw [Nat.shiftLeft_eq]; omega
  have e2 : (s.2 <<< 1) % 2 ^ 64 = 2 ^ 1 * s.2 := by
    rw [Nat.shiftLeft_eq]; omega
  simp only [e1, e2]
  by_cases hc : s.1 * 2 ≥ b
  · rw [if_pos hc, ← Nat.mul_add_lt_is_or (by norm_num : 1 < 2 ^ 1)]
    simp only [pow_one]
    refine ⟨?_, by omega, by omega⟩
    have : (2 * s.2 + 1) * b = s.2 * b * 2 + b := by ring
    rw [this]; omega
  · rw [if_neg hc]
    simp only [pow_one]
    refine ⟨?_, by omega, by omega⟩
    have : 2 * s.2 * b = s.2 * b * 2 := by ring
    rw [this]; omega

/-- Invariant of the long-division loop after `n` passes: `quot_lo * b + rem` is
the initial value times `2^n`, and the remainder stays below the divisor. -/
theorem divLoop_spec (b n : Nat) (hb : b ≤ 2 ^ 63) :
    ∀ (m : Nat) (s : Nat × Nat), m + n ≤ 63 → s.1 < b → s.2 < 2 ^ m →
      (divLoop b n s).2 * b + (divLoop b n s).1 = (s.2 * b + s.1) * 2 ^ n ∧
        (divLoop b n s).1 < b := by
  induction n with
  | zero => intro m s _ hr _; simpa [divLoop] using hr
  | succ k ih =>
    intro m s hmn hr hq
    have hq2 : s.2 < 2 ^ 63 :=
      lt_of_lt_of_le hq (Nat.pow_le_pow_right (by norm_num) (by omega))
    obtain ⟨h1, h2, h5⟩ := divStep_spec b s hb hr hq2
    have hq3 : (divStep b s).2 < 2 ^ (m + 1) := by
      rw [pow_succ]; omega
    obtain ⟨h3, h4⟩ := ih (m + 1) (divStep b s) (by omega) h2 hq3
    simp only [divLoop]
    refine ⟨?_, h4⟩
    rw [h3, h1, pow_succ]; ring

/-- The low quotient word produced by the loop and the high word from the
integer division together are the 96-by-64-bit quotient `a * 2^32 / b`. -/
theorem div_words (a b : Nat) (hb0 : 0 < b) (hb : b ≤ 2 ^ 63) :
    (divLoop b 32 (a % b, 0)).2 < 2 ^ 32 ∧
      a / b * 2 ^ 32 + (divLoop b 32 (a % b, 0)).2 = a * 2 ^ 32 / b := by
  obtain ⟨h1, h2⟩ := divLoop_spec b 32 hb 0 (a % b, 0) (by norm_num) (Nat.mod_lt _ hb0)
    (by norm_num)
  simp only [Nat.zero_mul, Nat.zero_add] at h1
  generalize (divLoop b 32 (a % b, 0)).2 = ql at *
  generalize (divLoop b 32 (a % b, 0)).1 = r at *
  have hr : a % b < b := Nat.mod_lt _ hb0
  have hql : ql < 2 ^ 32 := by
    by_contra hcon
    have : 2 ^ 32 * b ≤ ql * b := Nat.mul_le_mul_right _ (by omega)
    have : a % b * 2 ^ 32 < b * 2 ^ 32 := Nat.mul_lt_mul_of_pos_right hr (by norm_num)
    have : 2 ^ 32 * b = b * 2 ^ 32 := Nat.mul_comm _ _
    omega
  refine ⟨hql, ?_⟩
  have hsplit : a * 2 ^ 32 = r + (a / b * 2 ^ 32 + ql) * b := by
    have e : (a / b * 2 ^ 32 + ql) * b = b * (a / b) * 2 ^ 32 + ql * b := by ring
    have e' : a * 2 ^ 32 = b * (a / b) * 2 ^ 32 + a % b * 2 ^ 32 := by
      conv_lhs => rw [← Nat.div_add_mod a b]
      ring
    omega
  rw [hsplit, Nat.add_mul_div_right _ _ hb0, Nat.div_eq_of_lt h2, Nat.zero_add]

/-- The bitwise or of the shifted high word and the low word is their sum modulo
`2^64`. -/
theorem or_words (qh ql : Nat) (hql : ql < 2 ^ 32) :
    ((((qh <<< 32) % 2 ^ 64) ||| ql : Nat) : Int) % 2 ^ 64 = ((qh * 2 ^ 32 + ql : Nat) : Int) % 2 ^ 64 := by
  have e : (qh <<< 32) % 2 ^ 64 = 2 ^ 32 * (qh % 2 ^ 32) := by
    rw [Nat.shiftLeft_eq]; omega
  rw [e, ← Nat.mul_add_lt_is_or hql]
  omega

/-- Negating in `int64_t` a wrapped value is wrapping the negation. -/
theorem toInt64_neg_toInt64 (x : Int) : toInt64 (-(toInt64 x)) = toInt64 (-x) := by
  unfold toInt64
  omega

/-- Magnitude extraction at the head of `fix_div_s` and `fix_recip`. -/
theorem magnitude_eq (x : Int) (hx : InInt64 x) :
    (if x < 0 then toUInt64 (toInt64 (-(toInt64 (toUInt64 x)))) else toUInt64 x) = x.natAbs := by
  unfold InInt64 at hx
  unfold toInt64 toUInt64
  split_ifs <;> omega

/-- For a nonzero divisor, `fix_div_s` is the quotient truncated toward zero,
wrapped to `int64_t`. -/
theorem fix_div_s_eq (num denom : Int) (hn : InInt64 num) (hd : InInt64 denom)
    (h0 : denom ≠ 0) :
    fix_div_s num denom =
      toInt64 (if (num < 0 ↔ denom < 0) then ((num.natAbs * 2 ^ 32 / denom.natAbs : Nat) : Int)
        else -((num.natAbs * 2 ^ 32 / denom.natAbs : Nat) : Int)) := by
  have hb0 : 0 < denom.natAbs := Int.natAbs_pos.2 h0
  have hb : denom.natAbs ≤ 2 ^ 63 := by unfold InInt64 at hd; omega
  obtain ⟨hql, hq⟩ := div_words num.natAbs denom.natAbs hb0 hb
  have hor := or_words (num.natAbs / denom.natAbs) _ hql
  rw [hq] at hor
  have hres := toInt64_congr hor
  have ma := magnitude_eq num hn
  have mb := magnitude_eq denom hd
  unfold fix_div_s
  rw [if_neg h0]
  simp only []
  rw [ma, mb, hres, toInt64_neg_toInt64]
  generalize ((num.natAbs * 2 ^ 32 / denom.natAbs : Nat) : Int) = q
  by_cases h1 : num < 0 <;> by_cases h2 : denom < 0 <;> simp [h1, h2]

/-! ## The claims about the arithmetic engine -/

/-- C1. For all `fix64` values `a` and `b`, `fix_mult a b` is `floor(a*b / 2^32)`
reduced modulo `2^64` to a signed 64-bit value; whenever that quotient is
itself a signed 64-bit value, `fix_mult a b` is exactly `floor(a*b / 2^32)`. -/
theorem fix_mult_exact (a b : Int) :
    fix_mult a b = toInt64 (a * b / 2 ^ 32) ∧
      (InInt64 (a * b / 2 ^ 32) → fix_mult a b = a * b / 2 ^ 32) := by
  refine ⟨fix_mult_eq a b, fun h => ?_⟩
  rw [fix_mult_eq, toInt64_of_inInt64 h]

/-- C1 at `3.5 * (-0.5) = -1.75`. -/
theorem fix_mult_exact_witness :
    InInt64 (7 * 2 ^ 31) ∧ InInt64 (-(2 ^ 31)) ∧
      InInt64 ((7 * 2 ^ 31) * (-(2 ^ 31)) / 2 ^ 32) ∧
      fix_mult (7 * 2 ^ 31) (-(2 ^ 31)) = (7 * 2 ^ 31) * (-(2 ^ 31)) / 2 ^ 32 :=
  ⟨by decide, by decide, by decide,
    (fix_mult_exact (7 * 2 ^ 31) (-(2 ^ 31))).2 (by decide)⟩

/-- C2. For every `num` and nonzero `denom` whose quotient magnitude
`q = floor(|num| * 2^32 / |denom|)` is at most `2^63 - 1`, `fix_div_s num denom`
is `q` when `num` and `denom` have the same sign and `-q` otherwise. -/
theorem fix_div_s_exact (num denom : Int) (hn : InInt64 num) (hd : InInt64 denom)
    (h0 : denom ≠ 0) (hq : num.natAbs * 2 ^ 32 / denom.natAbs ≤ 2 ^ 63 - 1) :
    fix_div_s num denom =
      if (num < 0 ↔ denom < 0) then ((num.natAbs * 2 ^ 32 / denom.natAbs : Nat) : Int)
      else -((num.natAbs * 2 ^ 32 / denom.natAbs : Nat) : Int) := by
  rw [fix_div_s_eq num denom hn hd h0]
  generalize num.natAbs * 2 ^ 32 / denom.natAbs = q at hq ⊢
  apply toInt64_of_inInt64
  unfold InInt64
  split_ifs <;> omega

/-- C2 at `10 / 4`: the quotient is `5 * 2^31`, the encoding of `2.5`. -/
theorem fix_div_s_exact_witness :
    InInt64 (INT_2_FIX 10) ∧ InInt64 (INT_2_FIX 4) ∧ INT_2_FIX 4 ≠ 0 ∧
      (INT_2_FIX 10).natAbs * 2 ^ 32 / (INT_2_FIX 4).natAbs ≤ 2 ^ 63 - 1 ∧
      fix_div_s (INT_2_FIX 10) (INT_2_FIX 4) = 5 * 2 ^ 31 :=
  ⟨by decide, by decide, by decide, by decide,
    (fix_div_s_exact (INT_2_FIX 10) (INT_2_FIX 4) (by decide) (by decide) (by decide)
      (by decide)).trans (by decide)⟩

/-- C3. Division by zero saturates: `fix_div_s num 0` is `FIX_MAX = 2^63 - 1`
for `num ≥ 0` and `FIX_MIN = -2^63` for `num < 0`, and `fix_recip 0 = FIX_MAX`. -/
theorem div_by_zero_saturates (num : Int) :
    fix_div_s num 0 = (if num ≥ 0 then FIX_MAX else FIX_MIN) ∧
      FIX_MAX = 2 ^ 63 - 1 ∧ FIX_MIN = -(2 ^ 63) ∧ fix_recip 0 = FIX_MAX := by
  refine ⟨?_, by decide, by decide, ?_⟩
  · unfold fix_div_s
    rw [if_pos rfl]
  · unfold fix_recip
    rw [if_pos rfl]

/-- C5. For 32-bit integers `i1`, `i2` whose product is a 32-bit integer,
`fix_mult (INT_2_FIX i1) (INT_2_FIX i2)` is `INT_2_FIX (i1 * i2)`, with zero
fractional bits. -/
theorem fix_mult_int_exact (i1 i2 : Int) (h1 : InInt32 i1) (h2 : InInt32 i2)
    (h12 : InInt32 (i1 * i2)) :
    fix_mult (INT_2_FIX i1) (INT_2_FIX i2) = INT_2_FIX (i1 * i2) ∧
      GET_FRAC (fix_mult (INT_2_FIX i1) (INT_2_FIX i2)) = 0 := by
  unfold InInt32 at h1 h2 h12
  have e1 : INT_2_FIX i1 = i1 * 2 ^ 32 := by
    unfold INT_2_FIX FRAC_WIDTH toInt64; omega
  have e2 : INT_2_FIX i2 = i2 * 2 ^ 32 := by
    unfold INT_2_FIX FRAC_WIDTH toInt64; omega
  have e3 : INT_2_FIX (i1 * i2) = i1 * i2 * 2 ^ 32 := by
    generalize i1 * i2 = p at *
    unfold INT_2_FIX FRAC_WIDTH toInt64; omega
  have e4 : i1 * 2 ^ 32 * (i2 * 2 ^ 32) / 2 ^ 32 = i1 * i2 * 2 ^ 32 := by
    have : i1 * 2 ^ 32 * (i2 * 2 ^ 32) = i1 * i2 * 2 ^ 32 * 2 ^ 32 := by ring
    rw [this, Int.mul_ediv_cancel _ (by norm_num)]
  have e5 : fix_mult (INT_2_FIX i1) (INT_2_FIX i2) = i1 * i2 * 2 ^ 32 := by
    rw [fix_mult_eq, e1, e2, e4]
    generalize i1 * i2 = p at *
    unfold toInt64; omega
  refine ⟨by rw [e5, e3], ?_⟩
  rw [e5, GET_FRAC_eq]
  exact Int.mul_emod_left _ _

/-- C5 at `3 * 4 = 12`. -/
theorem fix_mult_int_exact_witness :
    InInt32 3 ∧ InInt32 4 ∧ InInt32 (3 * 4) ∧
      fix_mult (INT_2_FIX 3) (INT_2_FIX 4) = INT_2_FIX 12 :=
  ⟨by decide, by decide, by decide,
    (fix_mult_int_exact 3 4 (by decide) (by decide) (by decide)).1⟩

/-- C6. For every `n` in the signed 32-bit range, `FIX_2_INT (INT_2_FIX n) = n`. -/
theorem int_roundtrip (n : Int) (hn : InInt32 n) : FIX_2_INT (INT_2_FIX n) = n := by
  unfold InInt32 at hn
  unfold FIX_2_INT INT_2_FIX FRAC_WIDTH toInt64
  rw [Int.shiftRight_eq_div_pow]
  omega

/-- C6 at the least 32-bit integer. -/
theorem int_roundtrip_witness :
    InInt32 (-(2 ^ 31)) ∧ FIX_2_INT (INT_2_FIX (-(2 ^ 31))) = -(2 ^ 31) :=
  ⟨by decide, int_roundtrip (-(2 ^ 31)) (by decide)⟩

/-- C7. `fix_clz64 0 = 64`; for a nonzero 64-bit `x` the result `n` is at most
`63` and `2^(63-n) ≤ x < 2^(64-n)`; `fix_clz64 1 = 63` and `fix_clz64 (2^63) = 0`. -/
theorem fix_clz64_spec (x : Nat) (hx : x < 2 ^ 64) :
    fix_clz64 0 = 64 ∧
      (x ≠ 0 → fix_clz64 x ≤ 63 ∧ 2 ^ (63 - fix_clz64 x) ≤ x ∧ x < 2 ^ (64 - fix_clz64 x)) ∧
      fix_clz64 1 = 63 ∧ fix_clz64 (2 ^ 63) = 0 :=
  ⟨by decide, clz_bounds x hx, by decide, by decide⟩

/-- C7 at `x = 0x00F0000000000000`, which has eight leading zeros. -/
theorem fix_clz64_spec_witness :
    (0x00F0000000000000 : Nat) < 2 ^ 64 ∧ (0x00F0000000000000 : Nat) ≠ 0 ∧
      fix_clz64 0x00F0000000000000 ≤ 63 ∧
      2 ^ (63 - fix_clz64 0x00F0000000000000) ≤ 0x00F0000000000000 ∧
      0x00F0000000000000 < 2 ^ (64 - fix_clz64 0x00F0000000000000) :=
  ⟨by decide, by decide, (fix_clz64_spec 0x00F0000000000000 (by decide)).2.1 (by decide)⟩

/-- C4. At `x = INT_2_FIX 2` the reciprocal is `0` while the quotient
`fix_div_s FIX_ONE x` is `2^31`, so the two are not within one part in `2^20`;
at `FIX_ONE` and `-FIX_ONE` both functions return `FIX_ONE` and `-FIX_ONE`. -/
theorem fix_recip_far_from_div :
    fix_recip (INT_2_FIX 2) = 0 ∧ fix_div_s FIX_ONE (INT_2_FIX 2) = 2 ^ 31 ∧
      ¬ ((fix_recip (INT_2_FIX 2) - fix_div_s FIX_ONE (INT_2_FIX 2)).natAbs * 2 ^ 20
          ≤ (fix_div_s FIX_ONE (INT_2_FIX 2)).natAbs) ∧
      fix_recip FIX_ONE = FIX_ONE ∧ fix_div_s FIX_ONE FIX_ONE = FIX_ONE ∧
      fix_recip (-FIX_ONE) = -FIX_ONE ∧ fix_div_s FIX_ONE (-FIX_ONE) = -FIX_ONE := by
  set_option maxRecDepth 100000 in decide

/-- C10 fails as stated: the exact quotients of `FIX_ONE / 1` and `-FIX_ONE / 1`
are `2^64` and `-2^64`, outside the signed 64-bit range, and `fix_div_s` returns
`0` for both instead of `FIX_MAX` and `FIX_MIN`. -/
theorem fix_div_s_saturation_cex :
    InInt64 FIX_ONE ∧ InInt64 (-FIX_ONE) ∧ InInt64 1 ∧ (1 : Int) ≠ 0 ∧
      truncQuot FIX_ONE 1 = 2 ^ 64 ∧ ¬ InInt64 (truncQuot FIX_ONE 1) ∧
      fix_div_s FIX_ONE 1 = 0 ∧ fix_div_s FIX_ONE 1 ≠ FIX_MAX ∧
      truncQuot (-FIX_ONE) 1 = -(2 ^ 64) ∧ ¬ InInt64 (truncQuot (-FIX_ONE) 1) ∧
      fix_div_s (-FIX_ONE) 1 = 0 ∧ fix_div_s (-FIX_ONE) 1 ≠ FIX_MIN := by
  set_option maxRecDepth 100000 in decide

/-- C10, amended. For every `num` and nonzero `denom` whose exact quotient lies
outside the signed 64-bit range, `fix_div_s num denom` is that quotient reduced
modulo `2^64` to a signed 64-bit value, hence differs from the quotient. -/
theorem fix_div_s_overflow_wraps (num denom : Int) (hn : InInt64 num) (hd : InInt64 denom)
    (h0 : denom ≠ 0) (hout : ¬ InInt64 (truncQuot num denom)) :
    fix_div_s num denom = toInt64 (truncQuot num denom) ∧
      fix_div_s num denom ≠ truncQuot num denom := by
  have h := fix_div_s_eq num denom hn hd h0
  refine ⟨h, fun hcon => hout ?_⟩
  rw [← hcon, h]
  exact inInt64_toInt64 _

/-- C10, amended, at `FIX_ONE / 1`: the quotient `2^64` wraps to `0`. -/
theorem fix_div_s_overflow_wraps_witness :
    InInt64 FIX_ONE ∧ InInt64 1 ∧ (1 : Int) ≠ 0 ∧ ¬ InInt64 (truncQuot FIX_ONE 1) ∧
      fix_div_s FIX_ONE 1 = toInt64 (truncQuot FIX_ONE 1) ∧
      fix_div_s FIX_ONE 1 ≠ truncQuot FIX_ONE 1 :=
  ⟨by decide, by decide, by decide, by decide,
    fix_div_s_overflow_wraps FIX_ONE 1 (by decide) (by decide) (by decide) (by decide)⟩

/-! ## The fast multiplications, the conversions and the reciprocal -/

/-- The wrap to `int32_t` fixes the values of the type. -/
theorem toInt32_of_inInt32 {x : Int} (h : InInt32 x) : toInt32 x = x := by
  unfold InInt32 at h
  unfold toInt32
  omega

/-- A product of two integers of magnitude at most `m` and `n` has magnitude at
most `m * n`. -/
theorem mul_bounds {x y m n : Int} (hx : -m ≤ x ∧ x ≤ m) (hy : -n ≤ y ∧ y ≤ n) :
    -(m * n) ≤ x * y ∧ x * y ≤ m * n := by
  have hm : 0 ≤ m := by omega
  have hn : 0 ≤ n := by omega
  constructor <;> nlinarith [mul_nonneg (sub_nonneg.2 hx.2) (sub_nonneg.2 hy.2),
    mul_nonneg (sub_nonneg.2 hx.2) (by linarith [hy.1] : (0:Int) ≤ y + n),
    mul_nonneg (by linarith [hx.1] : (0:Int) ≤ x + m) (sub_nonneg.2 hy.2),
    mul_nonneg (by linarith [hx.1] : (0:Int) ≤ x + m) (by linarith [hy.1] : (0:Int) ≤ y + n)]

/-- Value of `fix_mult_i64` and of the integer part of `fix_mult` for operands
whose integer parts fit 16 bits, in terms of the half products. -/
theorem mult_i64_parts (a b : Int)
    (hia : -2 ^ 15 ≤ GET_INT a ∧ GET_INT a < 2 ^ 15)
    (hib : -2 ^ 15 ≤ GET_INT b ∧ GET_INT b < 2 ^ 15) :
    fix_mult_i64 a b
        = GET_INT a * GET_INT b + (GET_INT a * GET_FRAC b + GET_INT b * GET_FRAC a) / 2 ^ 32 ∧
      FIX_2_INT (fix_mult a b)
        = GET_INT a * GET_INT b
          + (GET_INT a * GET_FRAC b + GET_INT b * GET_FRAC a
              + GET_FRAC a * GET_FRAC b / 2 ^ 32) / 2 ^ 32 ∧
      0 ≤ GET_FRAC a * GET_FRAC b / 2 ^ 32 ∧ GET_FRAC a * GET_FRAC b / 2 ^ 32 < 2 ^ 32 := by
  rw [fix_mult_eq, mul_ediv_split]
  unfold fix_mult_i64 FIX_2_INT FRAC_WIDTH
  simp only [GET_INT_eq, GET_FRAC_eq, Int.shiftRight_eq_div_pow] at *
  have hf1 : 0 ≤ a % 2 ^ 32 ∧ a % 2 ^ 32 < 2 ^ 32 := by omega
  have hf2 : 0 ≤ b % 2 ^ 32 ∧ b % 2 ^ 32 < 2 ^ 32 := by omega
  generalize a / 2 ^ 32 = i1 at *
  generalize a % 2 ^ 32 = f1 at *
  generalize b / 2 ^ 32 = i2 at *
  generalize b % 2 ^ 32 = f2 at *
  have hp := mul_bounds (m := 2 ^ 15) (n := 2 ^ 15) (x := i1) (y := i2) (by omega) (by omega)
  have hq := mul_bounds (m := 2 ^ 15) (n := 2 ^ 32) (x := i1) (y := f2) (by omega) (by omega)
  have hr := mul_bounds (m := 2 ^ 15) (n := 2 ^ 32) (x := i2) (y := f1) (by omega) (by omega)
  have ht := mul_bounds (m := 2 ^ 32) (n := 2 ^ 32) (x := f1) (y := f2) (by omega) (by omega)
  have ht0 : 0 ≤ f1 * f2 := Int.mul_nonneg hf1.1 hf2.1
  have ht1 : f1 * f2 < 2 ^ 64 := by nlinarith
  have e1 : toInt32 i1 = i1 := by unfold toInt32; omega
  have e2 : toInt32 i2 = i2 := by unfold toInt32; omega
  rw [e1, e2]
  generalize i1 * i2 = p at *
  generalize i1 * f2 = q at *
  generalize i2 * f1 = r at *
  generalize f1 * f2 = t at *
  norm_num at hp hq hr
  simp only [Int.shiftRight_eq_div_pow, Nat.cast_pow, Nat.cast_ofNat]
  unfold toInt32 toInt64
  refine ⟨by omega, by omega, by omega, by omega⟩

/-- C12. For operands whose integer parts lie in `[-2^15, 2^15)`,
`fix_mult_i64 a b` is `i1*i2 + floor((i1*f2 + i2*f1) / 2^32)`, and the integer
part of `fix_mult a b` exceeds it by `0` or `1`. -/
theorem fix_mult_i64_spec (a b : Int)
    (hia : -2 ^ 15 ≤ GET_INT a ∧ GET_INT a < 2 ^ 15)
    (hib : -2 ^ 15 ≤ GET_INT b ∧ GET_INT b < 2 ^ 15) :
    fix_mult_i64 a b
        = GET_INT a * GET_INT b + (GET_INT a * GET_FRAC b + GET_INT b * GET_FRAC a) / 2 ^ 32 ∧
      (FIX_2_INT (fix_mult a b) - fix_mult_i64 a b = 0 ∨
        FIX_2_INT (fix_mult a b) - fix_mult_i64 a b = 1) := by
  obtain ⟨h1, h2, h3, h4⟩ := mult_i64_parts a b hia hib
  refine ⟨h1, ?_⟩
  rw [h1, h2]
  generalize GET_INT a * GET_INT b = p
  generalize GET_INT a * GET_FRAC b + GET_INT b * GET_FRAC a = c
  generalize GET_FRAC a * GET_FRAC b / 2 ^ 32 = t at h3 h4
  omega

/-- C12 at `1.75 * 1.75 = 3.0625`: dropping the product of the fractions gives
`2`, one less than the integer part `3`. -/
theorem fix_mult_i64_spec_witness :
    (-2 ^ 15 ≤ GET_INT (7 * 2 ^ 30) ∧ GET_INT (7 * 2 ^ 30) < 2 ^ 15) ∧
      fix_mult_i64 (7 * 2 ^ 30) (7 * 2 ^ 30) = 2 ∧
      FIX_2_INT (fix_mult (7 * 2 ^ 30) (7 * 2 ^ 30)) = 3 ∧
      (FIX_2_INT (fix_mult (7 * 2 ^ 30) (7 * 2 ^ 30)) - fix_mult_i64 (7 * 2 ^ 30) (7 * 2 ^ 30) = 0 ∨
        FIX_2_INT (fix_mult (7 * 2 ^ 30) (7 * 2 ^ 30)) - fix_mult_i64 (7 * 2 ^ 30) (7 * 2 ^ 30)
          = 1) :=
  ⟨by decide, by decide, by decide,
    (fix_mult_i64_spec (7 * 2 ^ 30) (7 * 2 ^ 30) (by decide) (by decide)).2⟩

/-- The shifted product of `fix_mult_i32` for operands without low 16 bits. -/
theorem shift16_mul (a b : Int) (ha : a % 2 ^ 16 = 0) (hb : b % 2 ^ 16 = 0) :
    (a / 2 ^ 16) * (b / 2 ^ 16) = a * b / 2 ^ 32 := by
  obtain ⟨x, rfl⟩ : ∃ x, a = x * 2 ^ 16 := ⟨a / 2 ^ 16, by omega⟩
  obtain ⟨y, rfl⟩ : ∃ y, b = y * 2 ^ 16 := ⟨b / 2 ^ 16, by omega⟩
  have e : x * 2 ^ 16 * (y * 2 ^ 16) = x * y * 2 ^ 32 := by ring
  rw [e, Int.mul_ediv_cancel _ (by norm_num), Int.mul_ediv_cancel _ (by norm_num),
    Int.mul_ediv_cancel _ (by norm_num)]

/-- For operands without low 16 bits whose integer parts fit 16 bits,
`fix_mult_i32` is the integer part of the exact product. -/
theorem fix_mult_i32_eq (a b : Int) (ha : a % 2 ^ 16 = 0) (hb : b % 2 ^ 16 = 0)
    (hia : -2 ^ 15 ≤ GET_INT a ∧ GET_INT a < 2 ^ 15)
    (hib : -2 ^ 15 ≤ GET_INT b ∧ GET_INT b < 2 ^ 15) :
    fix_mult_i32 a b = FIX_2_INT (fix_mult a b) := by
  have hx : -2 ^ 31 ≤ a / 2 ^ 16 ∧ a / 2 ^ 16 ≤ 2 ^ 31 := by
    rw [GET_INT_eq] at hia; omega
  have hy : -2 ^ 31 ≤ b / 2 ^ 16 ∧ b / 2 ^ 16 ≤ 2 ^ 31 := by
    rw [GET_INT_eq] at hib; omega
  have hp := mul_bounds (m := 2 ^ 31) (n := 2 ^ 31) hx hy
  rw [shift16_mul a b ha hb] at hp
  rw [fix_mult_eq]
  unfold fix_mult_i32 FIX_2_INT FRAC_WIDTH
  simp only [Int.shiftRight_eq_div_pow, shift16_mul a b ha hb, Nat.cast_pow, Nat.cast_ofNat]
  generalize a * b / 2 ^ 32 = p at *
  norm_num at hp
  unfold toInt32 toInt64
  omega

/-- C11 fails as stated: `INT_2_FIX 3` and `INT_2_FIX 4` have no low 16 bits and
integer parts `3` and `4`, yet `fix_mult_i32` returns the integer `12` while
`fix_mult` returns the Q32.32 value `INT_2_FIX 12`. -/
theorem fix_mult_i32_not_fix_cex :
    INT_2_FIX 3 % 2 ^ 16 = 0 ∧ INT_2_FIX 4 % 2 ^ 16 = 0 ∧
      GET_INT (INT_2_FIX 3) = 3 ∧ GET_INT (INT_2_FIX 4) = 4 ∧
      fix_mult_i32 (INT_2_FIX 3) (INT_2_FIX 4) = 12 ∧
      fix_mult (INT_2_FIX 3) (INT_2_FIX 4) = INT_2_FIX 12 ∧
      fix_mult_i32 (INT_2_FIX 3) (INT_2_FIX 4) ≠ fix_mult (INT_2_FIX 3) (INT_2_FIX 4) ∧
      fix_mult_i32 (INT_2_FIX 3) (INT_2_FIX 4) ≠ INT_2_FIX (3 * 4) := by
  decide

/-- C11, amended. For operands whose low 16 bits are zero and whose integer
parts lie in `[-2^15, 2^15)`, `fix_mult_i32 a b` is the integer part
`FIX_2_INT (fix_mult a b)` of the product; for integers `i1`, `i2` in that
range `fix_mult_i32 (INT_2_FIX i1) (INT_2_FIX i2) = i1 * i2`. -/
theorem fix_mult_i32_int_part :
    (∀ a b : Int, a % 2 ^ 16 = 0 → b % 2 ^ 16 = 0 →
        (-2 ^ 15 ≤ GET_INT a ∧ GET_INT a < 2 ^ 15) →
        (-2 ^ 15 ≤ GET_INT b ∧ GET_INT b < 2 ^ 15) →
        fix_mult_i32 a b = FIX_2_INT (fix_mult a b)) ∧
      (∀ i1 i2 : Int, (-2 ^ 15 ≤ i1 ∧ i1 < 2 ^ 15) → (-2 ^ 15 ≤ i2 ∧ i2 < 2 ^ 15) →
        fix_mult_i32 (INT_2_FIX i1) (INT_2_FIX i2) = i1 * i2) := by
  refine ⟨fix_mult_i32_eq, fun i1 i2 h1 h2 => ?_⟩
  have e1 : INT_2_FIX i1 = i1 * 2 ^ 32 := by
    unfold INT_2_FIX FRAC_WIDTH toInt64; omega
  have e2 : INT_2_FIX i2 = i2 * 2 ^ 32 := by
    unfold INT_2_FIX FRAC_WIDTH toInt64; omega
  have hp := mul_bounds (m := 2 ^ 15) (n := 2 ^ 15) (x := i1) (y := i2) (by omega) (by omega)
  rw [fix_mult_i32_eq _ _ (by rw [e1]; omega) (by rw [e2]; omega)
    (by rw [GET_INT_eq, e1]; omega) (by rw [GET_INT_eq, e2]; omega), fix_mult_eq, e1, e2]
  have e4 : i1 * 2 ^ 32 * (i2 * 2 ^ 32) / 2 ^ 32 = i1 * i2 * 2 ^ 32 := by
    have : i1 * 2 ^ 32 * (i2 * 2 ^ 32) = i1 * i2 * 2 ^ 32 * 2 ^ 32 := by ring
    rw [this, Int.mul_ediv_cancel _ (by norm_num)]
  rw [e4]
  unfold FIX_2_INT FRAC_WIDTH
  rw [Int.shiftRight_eq_div_pow]
  generalize i1 * i2 = p at *
  norm_num at hp
  unfold toInt64
  omega

/-- C11, amended, at `3 * 4`: the result is the integer `12`. -/
theorem fix_mult_i32_int_part_witness :
    INT_2_FIX 3 % 2 ^ 16 = 0 ∧ INT_2_FIX 4 % 2 ^ 16 = 0 ∧
      (-2 ^ 15 ≤ GET_INT (INT_2_FIX 3) ∧ GET_INT (INT_2_FIX 3) < 2 ^ 15) ∧
      (-2 ^ 15 ≤ GET_INT (INT_2_FIX 4) ∧ GET_INT (INT_2_FIX 4) < 2 ^ 15) ∧
      fix_mult_i32 (INT_2_FIX 3) (INT_2_FIX 4) = FIX_2_INT (fix_mult (INT_2_FIX 3) (INT_2_FIX 4)) ∧
      fix_mult_i32 (INT_2_FIX 3) (INT_2_FIX 4) = 3 * 4 :=
  ⟨by decide, by decide, by decide, by decide,
    fix_mult_i32_int_part.1 (INT_2_FIX 3) (INT_2_FIX 4) (by decide) (by decide) (by decide)
      (by decide),
    fix_mult_i32_int_part.2 3 4 (by decide) (by decide)⟩

/-- C13. Every `fix64` value `x` is `GET_INT x * 2^32 + GET_FRAC x` with
`GET_INT x` a signed 32-bit integer and `0 ≤ GET_FRAC x < 2^32`, so
`FIX_2_INT x` is `floor(x / 2^32)`: the largest integer `n` with
`n * 2^32 ≤ x`; `FIX_2_INT (-FIX_ONE_HALF) = -1`. -/
theorem fix_2_int_floor (x : Int) (hx : InInt64 x) :
    x = GET_INT x * 2 ^ 32 + GET_FRAC x ∧ InInt32 (GET_INT x) ∧
      0 ≤ GET_FRAC x ∧ GET_FRAC x < 2 ^ 32 ∧
      FIX_2_INT x = x / 2 ^ 32 ∧
      FIX_2_INT x * 2 ^ 32 ≤ x ∧ x < (FIX_2_INT x + 1) * 2 ^ 32 ∧
      FIX_2_INT (-FIX_ONE_HALF) = -1 := by
  have h2 : FIX_2_INT x = x / 2 ^ 32 := GET_INT_eq x
  rw [GET_INT_eq, GET_FRAC_eq, h2]
  unfold InInt64 at hx
  unfold InInt32
  refine ⟨by omega, by omega, by omega, by omega, rfl, by omega, by omega, by decide⟩

/-- C13 at `-2.5`, whose integer part is `-3`. -/
theorem fix_2_int_floor_witness :
    InInt64 (-(5 * 2 ^ 31)) ∧ FIX_2_INT (-(5 * 2 ^ 31)) = -3 ∧
      GET_FRAC (-(5 * 2 ^ 31)) = 2 ^ 31 ∧
      -(5 * 2 ^ 31) = GET_INT (-(5 * 2 ^ 31)) * 2 ^ 32 + GET_FRAC (-(5 * 2 ^ 31)) :=
  ⟨by decide, by decide, by decide, (fix_2_int_floor (-(5 * 2 ^ 31)) (by decide)).1⟩

/-- C19. `fix_mult` is commutative, and `FIX_ONE` is a right identity on
`fix64` values. -/
theorem fix_mult_comm_one (a b : Int) (ha : InInt64 a) :
    fix_mult a b = fix_mult b a ∧ fix_mult a FIX_ONE = a := by
  refine ⟨by rw [fix_mult_eq, fix_mult_eq, Int.mul_comm], ?_⟩
  have e : FIX_ONE = 2 ^ 32 := by decide
  rw [fix_mult_eq, e, Int.mul_ediv_cancel _ (by norm_num)]
  exact toInt64_of_inInt64 ha

/-- C19 at `a = -1.75`, `b = 2.5`. -/
theorem fix_mult_comm_one_witness :
    InInt64 (-(7 * 2 ^ 30)) ∧
      fix_mult (-(7 * 2 ^ 30)) (5 * 2 ^ 31) = fix_mult (5 * 2 ^ 31) (-(7 * 2 ^ 30)) ∧
      fix_mult (-(7 * 2 ^ 30)) FIX_ONE = -(7 * 2 ^ 30) :=
  ⟨by decide, fix_mult_comm_one (-(7 * 2 ^ 30)) (5 * 2 ^ 31) (by decide)⟩
/-- The seed of `fix_recip` is `2` for every normalised divisor. -/
theorem recip_seed (dn : Nat) (hlo : 2 ^ 63 ≤ dn) (hhi : dn < 2 ^ 64) :
    (0xFFFFFFFFFFFFFFFF / dn + 1) % 2 ^ 64 = 2 := by
  have h : 0xFFFFFFFFFFFFFFFF / dn = 1 :=
    Nat.div_eq_of_lt_le (by omega) (by omega)
  rw [h]
  decide

/-- A Newton-Raphson block of `fix_recip` maps every `x` below `2^32` to `0`. -/
theorem recipStep_small (dn x : Nat) (hx : x < 2 ^ 32) : recipStep dn x = 0 := by
  have h : x >>> 32 = 0 := by
    rw [Nat.shiftRight_eq_div_pow]
    exact Nat.div_eq_of_lt hx
  unfold recipStep
  simp only [h, Nat.mul_zero, Nat.zero_mul, Nat.zero_mod, Nat.zero_shiftLeft]

/-- Off its three special cases, `fix_recip` returns `0`. -/
theorem fix_recip_eq_zero (denom : Int) (hd : InInt64 denom) (h0 : denom ≠ 0)
    (h1 : denom ≠ FIX_ONE) (h2 : denom ≠ -FIX_ONE) : fix_recip denom = 0 := by
  have hm := magnitude_eq denom hd
  have hpos : denom.natAbs ≠ 0 := Int.natAbs_ne_zero.2 h0
  have hlt : denom.natAbs < 2 ^ 64 := by unfold InInt64 at hd; omega
  obtain ⟨_, hlo, hhi⟩ := clz_normalises denom.natAbs hlt hpos
  unfold fix_recip
  rw [if_neg h0, if_neg h1, if_neg h2]
  simp only []
  rw [hm, Nat.shiftLeft_eq, Nat.mod_eq_of_lt hhi, recip_seed _ hlo hhi,
    recipStep_small _ 2 (by norm_num), recipStep_small _ 0 (by norm_num)]
  simp only [Nat.zero_shiftRight, Nat.zero_shiftLeft, Nat.zero_mod]
  have e : toInt64 ((0 : Nat) : Int) = 0 := by decide
  have e' : toInt64 (-(0 : Int)) = 0 := by decide
  simp only [e, e', ite_self]

/-- C18. For every `fix64` value other than `0`, `FIX_ONE` and `-FIX_ONE`,
`fix_recip` returns `0`: for every normalised `dn` in `[2^63, 2^64)` the seed
is `2`, and each Newton-Raphson block maps `2` and then `0` to `0`. -/
theorem fix_recip_returns_zero (denom : Int) (hd : InInt64 denom) (h0 : denom ≠ 0)
    (h1 : denom ≠ FIX_ONE) (h2 : denom ≠ -FIX_ONE) :
    fix_recip denom = 0 ∧
      (∀ dn : Nat, 2 ^ 63 ≤ dn → dn < 2 ^ 64 →
        (0xFFFFFFFFFFFFFFFF / dn + 1) % 2 ^ 64 = 2 ∧ (2 : Nat) >>> 32 = 0 ∧
          recipStep dn 2 = 0 ∧ recipStep dn 0 = 0) :=
  ⟨fix_recip_eq_zero denom hd h0 h1 h2, fun dn hlo hhi =>
    ⟨recip_seed dn hlo hhi, by decide, recipStep_small dn 2 (by norm_num),
      recipStep_small dn 0 (by norm_num)⟩⟩

/-- C18 at `denom = -3.0`. -/
theorem fix_recip_returns_zero_witness :
    InInt64 (INT_2_FIX (-3)) ∧ INT_2_FIX (-3) ≠ 0 ∧ INT_2_FIX (-3) ≠ FIX_ONE ∧
      INT_2_FIX (-3) ≠ -FIX_ONE ∧ fix_recip (INT_2_FIX (-3)) = 0 :=
  ⟨by decide, by decide, by decide, by decide,
    (fix_recip_returns_zero (INT_2_FIX (-3)) (by decide) (by decide) (by decide)
      (by decide)).1⟩
end FixedPt

namespace GfxNsp

/-! ## The render loop -/

/-- Enough fuel: once the fuel covers the passes that remain, the result of
the render loop no longer depends on it. -/
theorem renderLoop_fuel (to_skip : Int) (esc : Nat → Bool) :
    ∀ (f1 f2 : Nat) (i : Int) (s : LoopState),
      (toInt32 (to_skip + 1) - i).toNat ≤ f1 → (toInt32 (to_skip + 1) - i).toNat ≤ f2 →
        renderLoop to_skip esc f1 i s = renderLoop to_skip esc f2 i s := by
  intro f1
  induction f1 with
  | zero =>
    intro f2 i s h1 _
    cases f2 with
    | zero => rfl
    | succ k => rw [renderLoop, renderLoop, if_neg (by omega)]
  | succ k ih =>
    intro f2 i s h1 h2
    cases f2 with
    | zero => rw [renderLoop, renderLoop, if_neg (by omega)]
    | succ j =>
      rw [renderLoop, renderLoop]
      by_cases hi : i < toInt32 (to_skip + 1)
      · rw [if_pos hi, if_pos hi]
        have hk : (toInt32 (to_skip + 1) - toInt32 (i + 1)).toNat ≤ k := by
          simp only [toInt32] at *
          omega
        have hj : (toInt32 (to_skip + 1) - toInt32 (i + 1)).toNat ≤ j := by
          simp only [toInt32] at *
          omega
        rw [ih j _ _ hk hj]
      · rw [if_neg hi, if_neg hi]

/-- The render loop never touches the frame counters. -/
theorem renderLoop_frames (to_skip : Int) (esc : Nat → Bool) :
    ∀ (fuel : Nat) (i : Int) (s : LoopState),
      (renderLoop to_skip esc fuel i s).1.frames_now = s.frames_now ∧
        (renderLoop to_skip esc fuel i s).1.frames_prev = s.frames_prev := by
  intro fuel
  induction fuel with
  | zero =>
    intro i s
    exact ⟨rfl, rfl⟩
  | succ k ih =>
    intro i s
    rw [renderLoop]
    by_cases hi : i < toInt32 (to_skip + 1)
    · rw [if_pos hi]
      by_cases he : esc i.toNat = true
      · rw [if_pos he]
        exact ⟨rfl, rfl⟩
      · rw [if_neg he]
        exact ih (toInt32 (i + 1)) _
    · rw [if_neg hi]
      exact ⟨rfl, rfl⟩

/-- Without cancellation, the render loop entered with counter `i ≤ to_skip`
invokes the callback `to_skip - i` times with `skip_frame` set and once more
with `skip_frame` cleared, and falls through. -/
theorem renderLoop_calls (to_skip : Int) (esc : Nat → Bool) (hesc : ∀ k, esc k = false)
    (hfit : to_skip + 1 < 2 ^ 31) :
    ∀ (n : Nat) (i : Int) (s : LoopState), 0 ≤ i → i ≤ to_skip → (to_skip - i).toNat = n →
      (renderLoop to_skip esc (n + 1) i s).2 = false ∧
        (renderLoop to_skip esc (n + 1) i s).1.calls
          = s.calls ++ List.replicate n true ++ [false] := by
  intro n
  induction n with
  | zero =>
    intro i s h0 hi hn
    have hit : i = to_skip := by omega
    subst hit
    have hb : toInt32 (i + 1) = i + 1 := by unfold toInt32; omega
    rw [renderLoop, hb, if_pos (by omega), hesc, if_neg (by simp), renderLoop]
    simp [renderStep]
  | succ k ih =>
    intro i s h0 hi hn
    have hb : toInt32 (to_skip + 1) = to_skip + 1 := by unfold toInt32; omega
    have hb' : toInt32 (i + 1) = i + 1 := by unfold toInt32; omega
    rw [renderLoop, hb, if_pos (by omega), hesc, if_neg (by simp), hb']
    obtain ⟨h1, h2⟩ := ih (i + 1) (renderStep to_skip i s) (by omega) (by omega) (by omega)
    refine ⟨h1, ?_⟩
    rw [h2]
    have hlt : decide (i < to_skip) = true := by
      rw [decide_eq_true_eq]; omega
    simp [renderStep, hlt, List.replicate_succ]

/-- The fuel of the batch is enough: any larger amount gives the same result. -/
theorem renderBatch_fuel (cfg nf : Nat) (esc : Nat → Bool) (s : LoopState) (fuel : Nat)
    (h : loopFuel (toSkip cfg nf) ≤ fuel) :
    renderLoop (toSkip cfg nf) esc fuel 0 s = renderBatch cfg nf esc s := by
  have e : (toInt32 (toSkip cfg nf + 1) - 0).toNat = loopFuel (toSkip cfg nf) := by
    unfold loopFuel
    rw [Int.sub_zero]
  unfold renderBatch
  exact renderLoop_fuel _ esc fuel _ 0 s (by rw [e]; exact h) (by rw [e])

/-- The batch never touches the frame counters. -/
theorem renderBatch_frames (cfg nf : Nat) (esc : Nat → Bool) (s : LoopState) :
    (renderBatch cfg nf esc s).1.frames_now = s.frames_now ∧
      (renderBatch cfg nf esc s).1.frames_prev = s.frames_prev := by
  unfold renderBatch
  exact renderLoop_frames _ esc _ 0 s

/-- Without cancellation and with a number of new frames that fits an `int`,
the batch invokes the callback `min (new_frames - 1) configFrameskip` times
with `skip_frame` set, then once with `skip_frame` cleared. -/
theorem renderBatch_calls (cfg nf : Nat) (esc : Nat → Bool) (s : LoopState)
    (hesc : ∀ k, esc k = false) (hpos : 0 < nf) (hfit : nf < 2 ^ 31) :
    (renderBatch cfg nf esc s).2 = false ∧
      (renderBatch cfg nf esc s).1.calls
        = s.calls ++ List.replicate (min (nf - 1) cfg) true ++ [false] := by
  have hts : toSkip cfg nf = ((min (nf - 1) cfg : Nat) : Int) := by
    unfold toSkip toInt32 toUInt32
    split_ifs <;> omega
  unfold renderBatch
  rw [hts]
  generalize hK : min (nf - 1) cfg = K
  have hfuel : loopFuel (K : Int) = K + 1 := by
    unfold loopFuel toInt32; omega
  rw [hfuel]
  exact renderLoop_calls (K : Int) esc hesc (by omega) K 0 s (le_refl _) (by omega) (by omega)

/-! ## One pass of the main loop -/

/-- The body of the main loop with its local declarations substituted. -/
theorem tick_eq (cfg now_ms : Nat) (esc : Nat → Bool) (s : LoopState) :
    tick cfg now_ms esc s =
      if toUInt32 (((now_ms / 33 % 2 ^ 32 : Nat) : Int) - (s.frames_prev : Int)) ≠ 0 then
        if (renderBatch cfg (toUInt32 (((now_ms / 33 % 2 ^ 32 : Nat) : Int) - (s.frames_prev : Int)))
            esc { s with frames_now := now_ms / 33 % 2 ^ 32 }).2 = true then
          renderBatch cfg (toUInt32 (((now_ms / 33 % 2 ^ 32 : Nat) : Int) - (s.frames_prev : Int)))
            esc { s with frames_now := now_ms / 33 % 2 ^ 32 }
        else
          ({ (renderBatch cfg
                (toUInt32 (((now_ms / 33 % 2 ^ 32 : Nat) : Int) - (s.frames_prev : Int)))
                esc { s with frames_now := now_ms / 33 % 2 ^ 32 }).1 with
              frames_prev := (renderBatch cfg
                (toUInt32 (((now_ms / 33 % 2 ^ 32 : Nat) : Int) - (s.frames_prev : Int)))
                esc { s with frames_now := now_ms / 33 % 2 ^ 32 }).1.frames_now }, false)
      else
        ({ s with frames_now := now_ms / 33 % 2 ^ 32, frames_prev := now_ms / 33 % 2 ^ 32 },
          false) := by
  unfold tick
  simp only []

/-- What the pass does to `frames_prev`, for an arbitrary outcome `r` of the
batch that leaves the frame counters alone. -/
theorem pass_frames_prev (X fp : Nat) (r : LoopState × Bool) (s : LoopState) (c : Prop)
    [Decidable c] (hf : r.1.frames_now = X ∧ r.1.frames_prev = fp) :
    (if c then (if r.2 = true then r else ({ r.1 with frames_prev := r.1.frames_now }, false))
      else ({ s with frames_now := X, frames_prev := X }, false)).1.frames_prev = fp ∨
    (if c then (if r.2 = true then r else ({ r.1 with frames_prev := r.1.frames_now }, false))
      else ({ s with frames_now := X, frames_prev := X }, false)).1.frames_prev = X := by
  by_cases h1 : c
  · rw [if_pos h1]
    by_cases h2 : r.2 = true
    · rw [if_pos h2]
      exact Or.inl hf.2
    · rw [if_neg h2]
      exact Or.inr hf.1
  · rw [if_neg h1]
    exact Or.inr rfl

/-- What the pass does to the record of invocations, for an arbitrary outcome
`r` of the batch that did not return. -/
theorem pass_calls (N X : Nat) (l : List Bool) (r : LoopState × Bool) (s : LoopState)
    (hr : 0 < N → r.2 = false ∧ r.1.calls = l) :
    (if N ≠ 0 then (if r.2 = true then r else ({ r.1 with frames_prev := r.1.frames_now }, false))
      else ({ s with frames_now := X, frames_prev := X }, false)).2 = false ∧
    (N = 0 →
      (if N ≠ 0 then
          (if r.2 = true then r else ({ r.1 with frames_prev := r.1.frames_now }, false))
        else ({ s with frames_now := X, frames_prev := X }, false)).1.calls = s.calls) ∧
    (0 < N →
      (if N ≠ 0 then
          (if r.2 = true then r else ({ r.1 with frames_prev := r.1.frames_now }, false))
        else ({ s with frames_now := X, frames_prev := X }, false)).1.calls = l) := by
  by_cases h1 : N ≠ 0
  · obtain ⟨h2, h3⟩ := hr (Nat.pos_of_ne_zero h1)
    rw [if_pos h1, if_neg (by rw [h2]; exact Bool.false_ne_true)]
    exact ⟨rfl, fun h => absurd h h1, fun _ => h3⟩
  · rw [if_neg h1]
    exact ⟨rfl, fun _ => rfl, fun h => absurd (Nat.pos_iff_ne_zero.1 h) h1⟩

/-- C8. One pass of the main loop at clock reading `now_ms` (a 32-bit value),
from a state whose `frames_prev` does not exceed the current frame count, with
no cancellation observed: with `new_frames = now_ms / 33 - frames_prev`, the
pass does not return; if `new_frames = 0` the callback is not invoked; if
`new_frames > 0` it is invoked `min (new_frames - 1) configFrameskip + 1` times,
`skip_frame` being set during all but the last invocation, so at most
`configFrameskip` invocations are marked skip. -/
theorem tick_batch (configFrameskip now_ms : Nat) (esc : Nat → Bool) (s : LoopState)
    (hnow : now_ms < 2 ^ 32) (hprev : s.frames_prev ≤ now_ms / 33)
    (hesc : ∀ k, esc k = false) :
    (tick configFrameskip now_ms esc s).2 = false ∧
      (now_ms / 33 - s.frames_prev = 0 →
        (tick configFrameskip now_ms esc s).1.calls = s.calls) ∧
      (0 < now_ms / 33 - s.frames_prev →
        (tick configFrameskip now_ms esc s).1.calls =
          s.calls ++ List.replicate (min (now_ms / 33 - s.frames_prev - 1) configFrameskip) true
            ++ [false]) ∧
      min (now_ms / 33 - s.frames_prev - 1) configFrameskip ≤ configFrameskip := by
  have hnf : toUInt32 (((now_ms / 33 % 2 ^ 32 : Nat) : Int) - (s.frames_prev : Int))
      = now_ms / 33 - s.frames_prev := by
    unfold toUInt32; omega
  have hNb : now_ms / 33 - s.frames_prev < 2 ^ 31 := by omega
  rw [tick_eq, hnf]
  have hr := fun hpos => renderBatch_calls configFrameskip (now_ms / 33 - s.frames_prev) esc
    { s with frames_now := now_ms / 33 % 2 ^ 32 } hesc hpos hNb
  obtain ⟨h1, h2, h3⟩ := pass_calls (now_ms / 33 - s.frames_prev) (now_ms / 33 % 2 ^ 32) _ _ s hr
  exact ⟨h1, h2, h3, Nat.min_le_right _ _⟩

/-- C8 on the scenario of the specification: `configFrameskip = 2`, clock
readings `0` then `100` ms: the second pass sees three new frames and invokes
the callback with skip, skip, full render. -/
theorem tick_batch_witness :
    (100 : Nat) < 2 ^ 32 ∧
      (tick 2 0 (fun _ => false) initState).1.frames_prev ≤ 100 / 33 ∧
      100 / 33 - (tick 2 0 (fun _ => false) initState).1.frames_prev = 3 ∧
      (tick 2 0 (fun _ => false) initState).1.calls = [] ∧
      (tick 2 100 (fun _ => false) (tick 2 0 (fun _ => false) initState).1).1.calls
        = [true, true, false] :=
  ⟨by decide, by decide, by decide, by decide,
    ((tick_batch 2 100 (fun _ => false) (tick 2 0 (fun _ => false) initState).1 (by decide)
      (by decide) (fun _ => rfl)).2.2.1 (by decide)).trans (by decide)⟩

/-! ## The main loop -/

/-- After one pass `frames_prev` is either what it was or the frame count just
read. -/
theorem tick_frames_prev (cfg now_ms : Nat) (esc : Nat → Bool) (s : LoopState) :
    (tick cfg now_ms esc s).1.frames_prev = s.frames_prev ∨
      (tick cfg now_ms esc s).1.frames_prev = now_ms / 33 % 2 ^ 32 := by
  rw [tick_eq]
  exact pass_frames_prev (now_ms / 33 % 2 ^ 32) s.frames_prev _ s _
    (renderBatch_frames cfg _ esc { s with frames_now := now_ms / 33 % 2 ^ 32 })

/-- Running the loop on one more input is running it on the inputs so far and
then, unless the function has returned, making one more pass. -/
theorem mainLoop_append (cfg : Nat) (inp : TickInput) :
    ∀ (pre : List TickInput) (s : LoopState),
      mainLoop cfg (pre ++ [inp]) s =
        if (mainLoop cfg pre s).2 then mainLoop cfg pre s
        else tick cfg inp.now_ms inp.esc (mainLoop cfg pre s).1 := by
  intro pre
  induction pre with
  | nil =>
    intro s
    simp only [List.nil_append, mainLoop]
    by_cases h : (tick cfg inp.now_ms inp.esc s).2 = true
    · rw [if_pos h]; rfl
    · rw [if_neg h]
      simp only [Bool.false_eq_true, if_false]
      exact Prod.ext rfl (Bool.eq_false_iff.2 h).symm
  | cons x xs ih =>
    intro s
    simp only [List.cons_append, mainLoop]
    by_cases h : (tick cfg x.now_ms x.esc s).2 = true
    · simp only [h, if_true]
    · simp only [h, if_false, Bool.false_eq_true]
      exact ih _

/-- The loop never moves `frames_prev` past a bound on the frame counts read. -/
theorem mainLoop_frames_prev_le (cfg B : Nat) :
    ∀ (pre : List TickInput) (s : LoopState), s.frames_prev ≤ B →
      (∀ x ∈ pre, x.now_ms / 33 ≤ B) → (mainLoop cfg pre s).1.frames_prev ≤ B := by
  intro pre
  induction pre with
  | nil => intro s hs _; simpa [mainLoop] using hs
  | cons x xs ih =>
    intro s hs hall
    have hx : x.now_ms / 33 ≤ B := hall x (List.mem_cons_self _ _)
    have ht : (tick cfg x.now_ms x.esc s).1.frames_prev ≤ B := by
      rcases tick_frames_prev cfg x.now_ms x.esc s with h | h <;> rw [h]
      · exact hs
      · exact le_trans (Nat.mod_le _ _) hx
    simp only [mainLoop]
    by_cases h : (tick cfg x.now_ms x.esc s).2 = true
    · rw [if_pos h]
      exact ht
    · rw [if_neg h]
      exact ih _ ht (fun y hy => hall y (List.mem_cons_of_mem _ hy))

/-- C9. On a non-decreasing sequence of 32-bit millisecond readings, every pass
of the main loop leaves `frames_prev` at least what it was before the pass and
at most `floor(now_ms / 33)` for the reading of that pass. -/
theorem frames_prev_monotone (cfg : Nat) (pre : List TickInput) (inp : TickInput)
    (hmono : List.Pairwise (fun a b => a ≤ b) ((pre ++ [inp]).map TickInput.now_ms))
    (h32 : ∀ x ∈ pre ++ [inp], x.now_ms < 2 ^ 32) :
    (mainLoop cfg pre initState).1.frames_prev
        ≤ (mainLoop cfg (pre ++ [inp]) initState).1.frames_prev ∧
      (mainLoop cfg (pre ++ [inp]) initState).1.frames_prev ≤ inp.now_ms / 33 := by
  have hle : ∀ x ∈ pre, x.now_ms / 33 ≤ inp.now_ms / 33 := by
    intro x hx
    rw [List.map_append, List.pairwise_append] at hmono
    exact Nat.div_le_div_right (hmono.2.2 _ (List.mem_map_of_mem _ hx) _ (by simp))
  have hbefore : (mainLoop cfg pre initState).1.frames_prev ≤ inp.now_ms / 33 :=
    mainLoop_frames_prev_le cfg _ pre initState (Nat.zero_le _) hle
  have hnow : inp.now_ms < 2 ^ 32 := h32 inp (by simp)
  have hfn : inp.now_ms / 33 % 2 ^ 32 = inp.now_ms / 33 := by omega
  rw [mainLoop_append]
  by_cases hx : (mainLoop cfg pre initState).2 = true
  · rw [if_pos hx]
    exact ⟨le_refl _, hbefore⟩
  · rw [if_neg hx]
    rcases tick_frames_prev cfg inp.now_ms inp.esc (mainLoop cfg pre initState).1 with h | h
    · rw [h]; exact ⟨le_refl _, hbefore⟩
    · rw [h, hfn]; exact ⟨hbefore, le_refl _⟩

/-- C9 on the readings `0, 100, 100, 250` ms with `configFrameskip = 2`. -/
theorem frames_prev_monotone_witness :
    List.Pairwise (fun a b => a ≤ b)
        (([quietInput 0, quietInput 100, quietInput 100] ++ [quietInput 250]).map
          TickInput.now_ms) ∧
      (∀ x ∈ [quietInput 0, quietInput 100, quietInput 100] ++ [quietInput 250],
        x.now_ms < 2 ^ 32) ∧
      (mainLoop 2 [quietInput 0, quietInput 100, quietInput 100] initState).1.frames_prev
        ≤ (mainLoop 2 ([quietInput 0, quietInput 100, quietInput 100] ++ [quietInput 250])
            initState).1.frames_prev ∧
      (mainLoop 2 ([quietInput 0, quietInput 100, quietInput 100] ++ [quietInput 250])
          initState).1.frames_prev ≤ (quietInput 250).now_ms / 33 :=
  ⟨by decide, by decide,
    frames_prev_monotone 2 [quietInput 0, quietInput 100, quietInput 100] (quietInput 250)
      (by decide) (by decide)⟩

/-! ## Cancellation -/

/-- With ESC first seen at the poll after `d` more invocations, the render loop
entered with counter `i ≤ to_skip` makes exactly `d + 1` invocations, the
first `d + 1` of its uncancelled sequence, and returns. -/
theorem renderLoop_cancel (to_skip : Int) (esc : Nat → Bool) (hfit : to_skip + 1 < 2 ^ 31) :
    ∀ (d n : Nat) (i : Int) (s : LoopState), 0 ≤ i → i ≤ to_skip → (to_skip - i).toNat = n →
      d ≤ n → (∀ j, j < d → esc (i.toNat + j) = false) → esc (i.toNat + d) = true →
      (renderLoop to_skip esc (n + 1) i s).2 = true ∧
        (renderLoop to_skip esc (n + 1) i s).1.calls
          = s.calls ++ List.take (d + 1) (List.replicate n true ++ [false]) ∧
        (renderLoop to_skip esc (n + 1) i s).1.frames_prev = s.frames_prev := by
  intro d
  induction d with
  | zero =>
    intro n i s h0 hi hn _ _ he
    have hb : toInt32 (to_skip + 1) = to_skip + 1 := by unfold toInt32; omega
    rw [Nat.add_zero] at he
    rw [renderLoop, hb, if_pos (by omega), he, if_pos rfl]
    refine ⟨rfl, ?_, rfl⟩
    cases n with
    | zero =>
      have : decide (i < to_skip) = false := by
        rw [decide_eq_false_iff_not]; omega
      simp [renderStep, this]
    | succ k =>
      have : decide (i < to_skip) = true := by
        rw [decide_eq_true_eq]; omega
      simp [renderStep, this, List.replicate_succ]
  | succ d ih =>
    intro n i s h0 hi hn hdn hq he
    have hb : toInt32 (to_skip + 1) = to_skip + 1 := by unfold toInt32; omega
    have hb' : toInt32 (i + 1) = i + 1 := by unfold toInt32; omega
    have h0f : esc i.toNat = false := by
      have := hq 0 (Nat.succ_pos _)
      rwa [Nat.add_zero] at this
    obtain ⟨k, rfl⟩ : ∃ k, n = k + 1 := ⟨n - 1, by omega⟩
    have hi1 : (i + 1).toNat = i.toNat + 1 := by omega
    rw [renderLoop, hb, if_pos (by omega), h0f, if_neg (by simp), hb']
    obtain ⟨r1, r2, r3⟩ := ih k (i + 1) (renderStep to_skip i s) (by omega) (by omega)
      (by omega) (by omega)
      (fun j hj => by rw [hi1, Nat.add_assoc, Nat.add_comm 1 j]; exact hq (j + 1) (by omega))
      (by rw [hi1, Nat.add_assoc, Nat.add_comm 1 d]; exact he)
    refine ⟨r1, ?_, r3⟩
    rw [r2]
    have hlt : decide (i < to_skip) = true := by
      rw [decide_eq_true_eq]; omega
    simp [renderStep, hlt, List.replicate_succ]

/-- The batch under a cancellation first seen at the poll after the `k`-th
invocation. -/
theorem renderBatch_cancel (cfg nf : Nat) (esc : Nat → Bool) (s : LoopState) (k : Nat)
    (hpos : 0 < nf) (hfit : nf < 2 ^ 31) (hk1 : 1 ≤ k) (hk2 : k ≤ min (nf - 1) cfg + 1)
    (hq : ∀ j, j < k - 1 → esc j = false) (he : esc (k - 1) = true) :
    (renderBatch cfg nf esc s).2 = true ∧
      (renderBatch cfg nf esc s).1.calls
        = s.calls ++ List.take k (List.replicate (min (nf - 1) cfg) true ++ [false]) ∧
      (renderBatch cfg nf esc s).1.frames_prev = s.frames_prev := by
  have hts : toSkip cfg nf = ((min (nf - 1) cfg : Nat) : Int) := by
    unfold toSkip toInt32 toUInt32
    split_ifs <;> omega
  unfold renderBatch
  rw [hts]
  generalize hK : min (nf - 1) cfg = K at hk2
  have hfuel : loopFuel (K : Int) = K + 1 := by
    unfold loopFuel toInt32; omega
  rw [hfuel]
  obtain ⟨d, rfl⟩ : ∃ d, k = d + 1 := ⟨k - 1, by omega⟩
  exact renderLoop_cancel (K : Int) esc (by omega) d K 0 s (le_refl _) (by omega) (by omega)
    (by omega) (fun j hj => by simpa using hq j (by omega)) (by simpa using he)

/-- Length of an initial part of the uncancelled batch. -/
theorem take_batch_length (k K : Nat) (h : k ≤ K + 1) :
    (List.take k (List.replicate K true ++ [false])).length = k := by
  rw [List.length_take, List.length_append, List.length_replicate, List.length_singleton]
  omega

/-- A pass whose batch returns hands back the outcome of the batch. -/
theorem pass_return (N X : Nat) (r : LoopState × Bool) (s : LoopState) (hN : N ≠ 0)
    (hr : r.2 = true) :
    (if N ≠ 0 then (if r.2 = true then r else ({ r.1 with frames_prev := r.1.frames_now }, false))
      else ({ s with frames_now := X, frames_prev := X }, false)) = r := by
  rw [if_pos hN, if_pos hr]

/-- Once a pass has returned, the main loop makes no further pass. -/
theorem mainLoop_return (cfg : Nat) (inp : TickInput) (rest : List TickInput) (s : LoopState)
    (h : (tick cfg inp.now_ms inp.esc s).2 = true) :
    mainLoop cfg (inp :: rest) s = tick cfg inp.now_ms inp.esc s := by
  simp only [mainLoop]
  rw [if_pos h]

/-- C14. In a batch with `new_frames > 0` on a 32-bit clock, if the ESC poll
first answers true after the `k`-th invocation (`1 ≤ k ≤ to_skip + 1`), the
pass returns having made exactly `k` invocations, the first `k` of the
uncancelled batch, `frames_prev` is left as it was, and the main loop makes no
further pass, whatever inputs follow. -/
theorem tick_cancel (configFrameskip now_ms : Nat) (esc : Nat → Bool) (s : LoopState) (k : Nat)
    (hnow : now_ms < 2 ^ 32) (hprev : s.frames_prev ≤ now_ms / 33)
    (hpos : 0 < now_ms / 33 - s.frames_prev)
    (hk1 : 1 ≤ k) (hk2 : k ≤ min (now_ms / 33 - s.frames_prev - 1) configFrameskip + 1)
    (hq : ∀ j, j < k - 1 → esc j = false) (he : esc (k - 1) = true) :
    (tick configFrameskip now_ms esc s).2 = true ∧
      (tick configFrameskip now_ms esc s).1.calls =
        s.calls ++ List.take k
          (List.replicate (min (now_ms / 33 - s.frames_prev - 1) configFrameskip) true
            ++ [false]) ∧
      (tick configFrameskip now_ms esc s).1.calls.length = s.calls.length + k ∧
      (tick configFrameskip now_ms esc s).1.frames_prev = s.frames_prev ∧
      ∀ rest : List TickInput,
        mainLoop configFrameskip (⟨now_ms, esc⟩ :: rest) s
          = tick configFrameskip now_ms esc s := by
  have hnf : toUInt32 (((now_ms / 33 % 2 ^ 32 : Nat) : Int) - (s.frames_prev : Int))
      = now_ms / 33 - s.frames_prev := by
    unfold toUInt32; omega
  have hNb : now_ms / 33 - s.frames_prev < 2 ^ 31 := by omega
  obtain ⟨r1, r2, r3⟩ := renderBatch_cancel configFrameskip (now_ms / 33 - s.frames_prev) esc
    { s with frames_now := now_ms / 33 % 2 ^ 32 } k hpos hNb hk1 hk2 hq he
  have ht : tick configFrameskip now_ms esc s
      = renderBatch configFrameskip (now_ms / 33 - s.frames_prev) esc
          { s with frames_now := now_ms / 33 % 2 ^ 32 } := by
    rw [tick_eq, hnf]
    exact pass_return _ (now_ms / 33 % 2 ^ 32) _ s (Nat.pos_iff_ne_zero.1 hpos) r1
  have h2 : (tick configFrameskip now_ms esc s).2 = true := by rw [ht]; exact r1
  have hcalls : (tick configFrameskip now_ms esc s).1.calls =
      s.calls ++ List.take k
        (List.replicate (min (now_ms / 33 - s.frames_prev - 1) configFrameskip) true
          ++ [false]) := by
    rw [ht]; exact r2
  refine ⟨h2, hcalls, ?_, by rw [ht]; exact r3,
    fun rest => mainLoop_return configFrameskip ⟨now_ms, esc⟩ rest s h2⟩
  rw [hcalls, List.length_append, take_batch_length _ _ hk2]

/-- C14 with `configFrameskip = 2`, three new frames and ESC seen after the
second invocation: two invocations, both marked skip, and no pass on the
reading that follows. -/
theorem tick_cancel_witness :
    (100 : Nat) < 2 ^ 32 ∧ initState.frames_prev ≤ 100 / 33 ∧
      0 < 100 / 33 - initState.frames_prev ∧
      2 ≤ min (100 / 33 - initState.frames_prev - 1) 2 + 1 ∧
      (tick 2 100 (fun j => decide (j = 1)) initState).2 = true ∧
      (tick 2 100 (fun j => decide (j = 1)) initState).1.calls = [true, true] ∧
      mainLoop 2 [⟨100, fun j => decide (j = 1)⟩, quietInput 200] initState
        = tick 2 100 (fun j => decide (j = 1)) initState :=
  ⟨by decide, by decide, by decide, by decide,
    (tick_cancel 2 100 (fun j => decide (j = 1)) initState 2 (by decide) (by decide)
      (by decide) (by decide) (by decide) (by decide) (by decide)).1,
    (tick_cancel 2 100 (fun j => decide (j = 1)) initState 2 (by decide) (by decide)
      (by decide) (by decide) (by decide) (by decide) (by decide)).2.1.trans (by decide),
    (tick_cancel 2 100 (fun j => decide (j = 1)) initState 2 (by decide) (by decide)
      (by decide) (by decide) (by decide) (by decide) (by decide)).2.2.2.2 [quietInput 200]⟩

/-! ## Invocations against frames -/

/-- What an uncancelled pass does to `frames_prev`, for an arbitrary outcome
`r` of the batch. -/
theorem pass_quiet_frames (N X : Nat) (r : LoopState × Bool) (s : LoopState)
    (hr : 0 < N → r.2 = false ∧ r.1.frames_now = X) :
    (if N ≠ 0 then (if r.2 = true then r else ({ r.1 with frames_prev := r.1.frames_now }, false))
      else ({ s with frames_now := X, frames_prev := X }, false)).1.frames_prev = X := by
  by_cases h1 : N ≠ 0
  · obtain ⟨h2, h3⟩ := hr (Nat.pos_of_ne_zero h1)
    rw [if_pos h1, if_neg (by rw [h2]; exact Bool.false_ne_true)]
    exact h3
  · rw [if_neg h1]

/-- An uncancelled pass on a 32-bit clock that has not run backwards does not
return, moves `frames_prev` to the frame count just read and makes
`min new_frames (configFrameskip + 1)` invocations. -/
theorem tick_quiet (cfg now_ms : Nat) (esc : Nat → Bool) (s : LoopState)
    (hnow : now_ms < 2 ^ 32) (hprev : s.frames_prev ≤ now_ms / 33)
    (hesc : ∀ k, esc k = false) :
    (tick cfg now_ms esc s).2 = false ∧
      (tick cfg now_ms esc s).1.frames_prev = now_ms / 33 ∧
      (tick cfg now_ms esc s).1.calls.length
        = s.calls.length + min (now_ms / 33 - s.frames_prev) (cfg + 1) := by
  have hfn : now_ms / 33 % 2 ^ 32 = now_ms / 33 := by omega
  have hnf : toUInt32 (((now_ms / 33 % 2 ^ 32 : Nat) : Int) - (s.frames_prev : Int))
      = now_ms / 33 - s.frames_prev := by
    unfold toUInt32; omega
  have hNb : now_ms / 33 - s.frames_prev < 2 ^ 31 := by omega
  have hr := fun hpos => renderBatch_calls cfg (now_ms / 33 - s.frames_prev) esc
    { s with frames_now := now_ms / 33 % 2 ^ 32 } hesc hpos hNb
  have hf := renderBatch_frames cfg (now_ms / 33 - s.frames_prev) esc
    { s with frames_now := now_ms / 33 % 2 ^ 32 }
  obtain ⟨h1, h2, h3⟩ :=
    pass_calls (now_ms / 33 - s.frames_prev) (now_ms / 33 % 2 ^ 32) _ _ s hr
  have h4 := pass_quiet_frames (now_ms / 33 - s.frames_prev) (now_ms / 33 % 2 ^ 32) _ s
    (fun hpos => ⟨(hr hpos).1, hf.1⟩)
  rw [tick_eq, hnf]
  refine ⟨h1, by rw [h4, hfn], ?_⟩
  by_cases hz : now_ms / 33 - s.frames_prev = 0
  · rw [h2 hz, hz, Nat.zero_min, Nat.add_zero]
  · rw [h3 (Nat.pos_of_ne_zero hz)]
    simp only [List.length_append, List.length_replicate, List.length_singleton]
    omega

/-- After a pass that has not returned, the main loop goes on with the inputs
that remain. -/
theorem mainLoop_continue (cfg : Nat) (inp : TickInput) (rest : List TickInput) (s : LoopState)
    (h : (tick cfg inp.now_ms inp.esc s).2 = false) :
    mainLoop cfg (inp :: rest) s = mainLoop cfg rest (tick cfg inp.now_ms inp.esc s).1 := by
  simp only [mainLoop]
  rw [if_neg (by rw [h]; exact Bool.false_ne_true)]

/-- Uncancelled runs on a non-decreasing 32-bit clock: the loop does not
return, the number of invocations never overtakes `frames_prev`, and it keeps
up with it as long as no pass sees more than `cfg + 1` new frames. -/
theorem mainLoop_quiet (cfg : Nat) :
    ∀ (inps : List TickInput) (s : LoopState),
      List.Pairwise (fun a b => a ≤ b) (inps.map TickInput.now_ms) →
      (∀ x ∈ inps, x.now_ms < 2 ^ 32) → (∀ x ∈ inps, ∀ k, x.esc k = false) →
      (∀ x ∈ inps, s.frames_prev ≤ x.now_ms / 33) →
      (mainLoop cfg inps s).2 = false ∧
        (s.calls.length ≤ s.frames_prev →
          (mainLoop cfg inps s).1.calls.length ≤ (mainLoop cfg inps s).1.frames_prev) ∧
        (s.calls.length = s.frames_prev →
          List.Chain (fun a b => b ≤ a + (cfg + 1)) s.frames_prev
            (inps.map fun x => x.now_ms / 33) →
          (mainLoop cfg inps s).1.calls.length = (mainLoop cfg inps s).1.frames_prev) := by
  intro inps
  induction inps with
  | nil =>
    intro s _ _ _ _
    exact ⟨rfl, fun h => h, fun h _ => h⟩
  | cons x xs ih =>
    intro s hmono h32 hq hprev
    rw [List.map_cons, List.pairwise_cons] at hmono
    obtain ⟨t1, t2, t3⟩ := tick_quiet cfg x.now_ms x.esc s (h32 x (List.mem_cons_self _ _))
      (hprev x (List.mem_cons_self _ _)) (hq x (List.mem_cons_self _ _))
    have hx := hprev x (List.mem_cons_self _ _)
    obtain ⟨r1, r2, r3⟩ := ih (tick cfg x.now_ms x.esc s).1 hmono.2
      (fun y hy => h32 y (List.mem_cons_of_mem _ hy))
      (fun y hy => hq y (List.mem_cons_of_mem _ hy))
      (fun y hy => by
        rw [t2]
        exact Nat.div_le_div_right (hmono.1 _ (List.mem_map_of_mem _ hy)))
    rw [mainLoop_continue cfg x xs s t1]
    refine ⟨r1, fun hle => r2 ?_, fun heq hch => ?_⟩
    · rw [t2, t3]; omega
    · rw [List.map_cons, List.chain_cons] at hch
      refine r3 ?_ ?_
      · rw [t2, t3]; omega
      · rw [t2]; exact hch.2

/-- C15 fails as stated: with `configFrameskip = 2` and readings `0` then `200`
ms (six new frames), no cancellation, the batch completes with three
invocations in all while `frames_prev` is `6`. -/
theorem calls_lag_frames_prev_cex :
    List.Pairwise (fun a b => a ≤ b) ([quietInput 0, quietInput 200].map TickInput.now_ms) ∧
      (mainLoop 2 [quietInput 0, quietInput 200] initState).2 = false ∧
      (mainLoop 2 [quietInput 0, quietInput 200] initState).1.calls.length = 3 ∧
      (mainLoop 2 [quietInput 0, quietInput 200] initState).1.frames_prev = 6 ∧
      (mainLoop 2 [quietInput 0, quietInput 200] initState).1.calls.length
        ≠ (mainLoop 2 [quietInput 0, quietInput 200] initState).1.frames_prev := by
  with_unfolding_all decide

/-- C15, amended. On a non-decreasing 32-bit clock with no cancellation, after
every pass the number of callback invocations made so far is at most
`frames_prev`, and equals it provided no pass saw more than
`configFrameskip + 1` new frames. -/
theorem calls_le_frames_prev (configFrameskip : Nat) (inps : List TickInput)
    (hmono : List.Pairwise (fun a b => a ≤ b) (inps.map TickInput.now_ms))
    (h32 : ∀ x ∈ inps, x.now_ms < 2 ^ 32) (hquiet : ∀ x ∈ inps, ∀ k, x.esc k = false) :
    (mainLoop configFrameskip inps initState).2 = false ∧
      (mainLoop configFrameskip inps initState).1.calls.length
        ≤ (mainLoop configFrameskip inps initState).1.frames_prev ∧
      (List.Chain (fun a b => b ≤ a + (configFrameskip + 1)) 0
          (inps.map fun x => x.now_ms / 33) →
        (mainLoop configFrameskip inps initState).1.calls.length
          = (mainLoop configFrameskip inps initState).1.frames_prev) := by
  obtain ⟨r1, r2, r3⟩ := mainLoop_quiet configFrameskip inps initState hmono h32 hquiet
    (fun x _ => Nat.zero_le _)
  exact ⟨r1, r2 (Nat.le_refl _), r3 rfl⟩

/-- C15, amended, on the readings `0, 100, 100, 200` ms with
`configFrameskip = 2`: three new frames per busy pass, six invocations and
`frames_prev = 6`. -/
theorem calls_le_frames_prev_witness :
    List.Pairwise (fun a b => a ≤ b)
        ([quietInput 0, quietInput 100, quietInput 100, quietInput 200].map
          TickInput.now_ms) ∧
      (∀ x ∈ [quietInput 0, quietInput 100, quietInput 100, quietInput 200],
        x.now_ms < 2 ^ 32) ∧
      (∀ x ∈ [quietInput 0, quietInput 100, quietInput 100, quietInput 200],
        ∀ k, x.esc k = false) ∧
      List.Chain (fun a b => b ≤ a + (2 + 1)) 0
        ([quietInput 0, quietInput 100, quietInput 100, quietInput 200].map
          fun x => x.now_ms / 33) ∧
      (mainLoop 2 [quietInput 0, quietInput 100, quietInput 100, quietInput 200]
          initState).1.calls.length
        = (mainLoop 2 [quietInput 0, quietInput 100, quietInput 100, quietInput 200]
            initState).1.frames_prev ∧
      (mainLoop 2 [quietInput 0, quietInput 100, quietInput 100, quietInput 200]
          initState).1.frames_prev = 6 :=
  ⟨by decide, by decide, by simp [quietInput], by simp [quietInput],
    (calls_le_frames_prev 2 [quietInput 0, quietInput 100, quietInput 100, quietInput 200]
      (by decide) (by decide) (by simp [quietInput])).2.2 (by simp [quietInput]),
    by with_unfolding_all decide⟩

/-! ## Colour conversion -/

/-- Masking with `w` ones placed at bit `s` keeps the bit field of width `w`
at position `s`. -/
theorem and_field_mask (c s w : Nat) :
    c &&& ((2 ^ w - 1) <<< s) = ((c >>> s) % 2 ^ w) <<< s := by
  apply Nat.eq_of_testBit_eq
  intro i
  simp only [Nat.testBit_and, Nat.testBit_shiftLeft, Nat.testBit_two_pow_sub_one,
    Nat.testBit_mod_two_pow, Nat.testBit_shiftRight]
  by_cases h : s ≤ i
  · have e : s + (i - s) = i := by omega
    simp only [ge_iff_le, h, decide_True, Bool.true_and, e]
    exact Bool.and_comm _ _
  · simp only [ge_iff_le, h, decide_False, Bool.false_and, Bool.and_false]

/-- The three fields of the result do not overlap, so their bitwise or is
their sum. -/
theorem or_fields (r g b : Nat) (hg : g < 2 ^ 6) (hb : b < 2 ^ 5) :
    (r <<< 11) ||| (g <<< 5) ||| b = r * 2 ^ 11 + g * 2 ^ 5 + b := by
  have e1 : (g <<< 5) ||| b = 2 ^ 5 * g + b := by
    rw [Nat.shiftLeft_eq, Nat.mul_comm, ← Nat.mul_add_lt_is_or hb]
  have e2 : 2 ^ 5 * g + b < 2 ^ 11 := by omega
  rw [Nat.or_assoc, e1, Nat.shiftLeft_eq, Nat.mul_comm r, ← Nat.mul_add_lt_is_or e2]
  omega

/-- The result of `c4444_to_c565` as a sum of its three fields. -/
theorem c4444_to_c565_eq (c : Nat) :
    c4444_to_c565 c
      = (c % 256 / 8) * 2 ^ 11 + (c / 256 % 256 / 4) * 2 ^ 5 + c / 65536 % 256 / 8 := by
  have m1 : (0b11111000 : Nat) = (2 ^ 5 - 1) <<< 3 := by decide
  have m2 : (0b1111110000000000 : Nat) = (2 ^ 6 - 1) <<< 10 := by decide
  have m3 : (0b11111 : Nat) = 2 ^ 5 - 1 := by decide
  have a1 : ((c &&& 0b11111000) <<< 8) % 2 ^ 32 = (c % 256 / 8) <<< 11 := by
    rw [m1, and_field_mask]
    simp only [Nat.shiftLeft_eq, Nat.shiftRight_eq_div_pow]
    omega
  have a2 : (c &&& 0b1111110000000000) >>> 5 = (c / 256 % 256 / 4) <<< 5 := by
    rw [m2, and_field_mask]
    simp only [Nat.shiftLeft_eq, Nat.shiftRight_eq_div_pow]
    omega
  have a3 : (c >>> 19) &&& 0b11111 = c / 65536 % 256 / 8 := by
    rw [m3, Nat.and_pow_two_sub_one_eq_mod]
    simp only [Nat.shiftRight_eq_div_pow]
    omega
  unfold c4444_to_c565
  rw [a1, a2, a3, or_fields _ _ _ (by omega) (by omega)]
  omega

/-- C17. For every pixel `c` with red in bits 7..0, green in bits 15..8 and
blue in bits 23..16, `c4444_to_c565 c` is
`((red >> 3) << 11) | ((green >> 2) << 5) | (blue >> 3)`, a 16-bit value with
the three fields in bits 15..11, 10..5 and 4..0; any pixel with the same
`red >> 3`, `green >> 2` and `blue >> 3` gives the same result, whatever its
alpha byte and low colour bits. -/
theorem c4444_to_c565_spec (c : Nat) :
    c4444_to_c565 c
        = (((c % 2 ^ 8) >>> 3) <<< 11) ||| ((((c >>> 8) % 2 ^ 8) >>> 2) <<< 5)
            ||| (((c >>> 16) % 2 ^ 8) >>> 3) ∧
      c4444_to_c565 c
        = ((c % 2 ^ 8) >>> 3) * 2 ^ 11 + (((c >>> 8) % 2 ^ 8) >>> 2) * 2 ^ 5
            + (((c >>> 16) % 2 ^ 8) >>> 3) ∧
      (c % 2 ^ 8) >>> 3 < 2 ^ 5 ∧ ((c >>> 8) % 2 ^ 8) >>> 2 < 2 ^ 6 ∧
      ((c >>> 16) % 2 ^ 8) >>> 3 < 2 ^ 5 ∧ c4444_to_c565 c < 2 ^ 16 ∧
      ∀ c' : Nat, (c' % 2 ^ 8) >>> 3 = (c % 2 ^ 8) >>> 3 →
        ((c' >>> 8) % 2 ^ 8) >>> 2 = ((c >>> 8) % 2 ^ 8) >>> 2 →
        ((c' >>> 16) % 2 ^ 8) >>> 3 = ((c >>> 16) % 2 ^ 8) >>> 3 →
        c4444_to_c565 c' = c4444_to_c565 c := by
  have hr : (c % 2 ^ 8) >>> 3 < 2 ^ 5 := by
    rw [Nat.shiftRight_eq_div_pow]; omega
  have hg : ((c >>> 8) % 2 ^ 8) >>> 2 < 2 ^ 6 := by
    rw [Nat.shiftRight_eq_div_pow]; omega
  have hb : ((c >>> 16) % 2 ^ 8) >>> 3 < 2 ^ 5 := by
    rw [Nat.shiftRight_eq_div_pow]; omega
  have hsum : ∀ x : Nat, c4444_to_c565 x
      = ((x % 2 ^ 8) >>> 3) * 2 ^ 11 + (((x >>> 8) % 2 ^ 8) >>> 2) * 2 ^ 5
          + (((x >>> 16) % 2 ^ 8) >>> 3) := by
    intro x
    rw [c4444_to_c565_eq]
    simp only [Nat.shiftRight_eq_div_pow]
    omega
  refine ⟨?_, hsum c, hr, hg, hb, ?_, fun c' h1 h2 h3 => ?_⟩
  · rw [or_fields _ _ _ hg hb]
    exact hsum c
  · rw [hsum c]; omega
  · rw [hsum c', hsum c, h1, h2, h3]

/-- C17 on two pixels that differ in the alpha byte and in the low bits of
each colour: both convert to `0xFFFF`. -/
theorem c4444_to_c565_spec_witness :
    (0x00F8FCF8 % 2 ^ 8) >>> 3 = (0x80FFFFFF % 2 ^ 8) >>> 3 ∧
      ((0x00F8FCF8 >>> 8) % 2 ^ 8) >>> 2 = ((0x80FFFFFF >>> 8) % 2 ^ 8) >>> 2 ∧
      ((0x00F8FCF8 >>> 16) % 2 ^ 8) >>> 3 = ((0x80FFFFFF >>> 16) % 2 ^ 8) >>> 3 ∧
      c4444_to_c565 0x00F8FCF8 = c4444_to_c565 0x80FFFFFF ∧
      c4444_to_c565 0x80FFFFFF = 0xFFFF :=
  ⟨by decide, by decide, by decide,
    (c4444_to_c565_spec 0x80FFFFFF).2.2.2.2.2.2 0x00F8FCF8 (by decide) (by decide) (by decide),
    by decide⟩

/-! ## Display buffer -/

theorem size_wr (b : Array Nat) (j v : Nat) : (wr b j v).size = b.size := by
  unfold wr
  exact Array.size_setD b j v

/-- Reading after an in-bounds element assignment. -/
theorem rd_wr (b : Array Nat) (j v k : Nat) (h : j < b.size) :
    rd (wr b j v) k = if k = j then v else rd b k := by
  have e : wr b j v = b.set ⟨j, h⟩ v := by
    unfold wr Array.setD
    rw [dif_pos h]
  rw [e]
  unfold rd
  rw [Array.getD_eq_get?, Array.getD_eq_get?, Array.get?_set]
  by_cases hk : j = k
  · subst hk
    simp
  · have hk2 : ¬ k = j := fun x => hk x.symm
    simp [hk, hk2]

/-- Invariant rule for a counted loop that runs `n` passes of stride `step`,
entered after `m` of them. -/
theorem forLoop_inv {σ : Type} (bound step n : Nat) (body : Nat → σ → σ)
    (P : Nat → σ → Prop) (hb : bound = n * step) (hstep : 0 < step)
    (hs : ∀ m st, m < n → P m st → P (m + 1) (body (m * step) st)) :
    ∀ (fuel m : Nat) (st : σ), m ≤ n → n ≤ m + fuel → P m st →
      P n (forLoop bound step body fuel (m * step) st) := by
  intro fuel
  induction fuel with
  | zero =>
    intro m st h1 h2 hP
    have e : m = n := by omega
    subst e
    exact hP
  | succ fuel ih =>
    intro m st h1 h2 hP
    unfold forLoop
    by_cases hlt : m < n
    · have hc : m * step < bound := by
        rw [hb]
        exact Nat.mul_lt_mul_of_pos_right hlt hstep
      rw [if_pos hc]
      have e : m * step + step = (m + 1) * step := by rw [Nat.add_mul, Nat.one_mul]
      rw [e]
      exact ih (m + 1) _ hlt (by omega) (hs m st hlt hP)
    · have e : m = n := by omega
      subst e
      have hc : ¬ m * step < bound := by
        rw [hb]
        exact Nat.lt_irrefl _
      rw [if_neg hc]
      exact hP

/-- Invariant rule for a counted loop entered at 0 with enough fuel: the
loop ends after exactly `n` passes. -/
theorem forLoop_run {σ : Type} (bound step n fuel : Nat) (body : Nat → σ → σ)
    (P : Nat → σ → Prop) (st : σ) (hb : bound = n * step) (hstep : 0 < step)
    (hf : n ≤ fuel) (h0 : P 0 st)
    (hs : ∀ m st, m < n → P m st → P (m + 1) (body (m * step) st)) :
    P n (forLoop bound step body fuel 0 st) := by
  have h := forLoop_inv bound step n body P hb hstep hs fuel 0 st (Nat.zero_le _)
    (by omega) h0
  rw [Nat.zero_mul] at h
  exact h

/-- Both halves of the word `(c16 << 16) | c16` are `c16`. -/
theorem dup_halves (c16 : Nat) (h : c16 < 2 ^ 16) :
    (((c16 <<< 16) % 2 ^ 32) ||| c16) % 2 ^ 16 = c16 ∧
      ((((c16 <<< 16) % 2 ^ 32) ||| c16) >>> 16) % 2 ^ 16 = c16 := by
  have e : ((c16 <<< 16) % 2 ^ 32) ||| c16 = 2 ^ 16 * c16 + c16 := by
    rw [Nat.shiftLeft_eq, Nat.mul_comm, Nat.mod_eq_of_lt (by omega),
      ← Nat.mul_add_lt_is_or h]
  rw [e, Nat.shiftRight_eq_div_pow]
  have h2 : c16 < 65536 := h
  simp only [Nat.reducePow]
  have h3 : (65536 * c16 + c16) / 65536 = c16 := by
    rw [Nat.add_comm, Nat.add_mul_div_left _ _ (by decide), Nat.div_eq_of_lt h2, Nat.zero_add]
  rw [h3]
  constructor <;> omega

/-- A word store keeps the size of the buffer. -/
theorem size_store32 (b : Array Nat) (idx w : Nat) : (store32 b idx w).size = b.size := by
  unfold store32
  rw [size_wr, size_wr]

/-- Reading after an in-bounds store of a word with equal halves. -/
theorem rd_store32 (b : Array Nat) (idx c16 k : Nat) (h : idx + 1 < b.size)
    (hc : c16 < 2 ^ 16) :
    rd (store32 b idx (((c16 <<< 16) % 2 ^ 32) ||| c16)) k
      = if k = idx ∨ k = idx + 1 then c16 else rd b k := by
  unfold store32
  rw [(dup_halves c16 hc).1, (dup_halves c16 hc).2,
    rd_wr _ _ _ _ (by rw [size_wr]; exact h), rd_wr _ _ _ _ (by omega)]
  by_cases h1 : k = idx + 1
  · simp [h1]
  · by_cases h2 : k = idx
    · simp [h2]
    · simp [h1, h2]

/-- Reading after an in-bounds `memcpy` inside the buffer. -/
theorem memcpy16_spec (b : Array Nat) (dst src bytes : Nat) (h : dst + bytes / 2 ≤ b.size) :
    (memcpy16 b dst src bytes).size = b.size ∧
      ∀ k, rd (memcpy16 b dst src bytes) k
        = if dst ≤ k ∧ k < dst + bytes / 2 then rd b (src + (k - dst)) else rd b k := by
  unfold memcpy16
  refine forLoop_run (bytes / 2) 1 (bytes / 2) (bytes / 2) _
    (fun m a => a.size = b.size ∧
      ∀ k, rd a k = if dst ≤ k ∧ k < dst + m then rd b (src + (k - dst)) else rd b k)
    b (by omega) (by decide) (Nat.le_refl _) ⟨rfl, fun k => ?_⟩ ?_
  · have hk : ¬ (dst ≤ k ∧ k < dst + 0) := by omega
    rw [if_neg hk]
  · intro m a hm ⟨hsz, hrd⟩
    refine ⟨by rw [size_wr]; exact hsz, fun k => ?_⟩
    rw [rd_wr _ _ _ _ (by omega), Nat.mul_one]
    by_cases h1 : k = dst + m
    · subst h1
      have e : dst + m - dst = m := by omega
      rw [if_pos rfl, if_pos ⟨by omega, by omega⟩, e]
    · rw [if_neg h1, hrd k]
      by_cases h2 : dst ≤ k ∧ k < dst + m
      · rw [if_pos h2, if_pos ⟨h2.1, by omega⟩]
      · rw [if_neg h2, if_neg (by omega)]

/-- The converted pixel fits 16 bits. -/
theorem c4444_to_c565_lt (c : Nat) : c4444_to_c565 c < 2 ^ 16 := by
  unfold c4444_to_c565
  exact Nat.mod_lt _ (by decide)

/-- One pass of the column loop of the 80p branch: source pixel `p0 + q` fills
elements `4q .. 4q + 3` of the rows at `base` and `base + SCREEN_WIDTH`. -/
theorem swap80_columns (gfx_output : Nat → Nat) (base : Nat) (st0 : Array Nat × Nat)
    (hsz : base + 640 ≤ st0.1.size) :
    (fun (st : Array Nat × Nat) =>
      st.2 = st0.2 + 80 ∧ st.1.size = st0.1.size ∧
      (∀ k, k < base ∨ base + 640 ≤ k → rd st.1 k = rd st0.1 k) ∧
      ∀ z, z < 320 →
        rd st.1 (base + z) = c4444_to_c565 (gfx_output (st0.2 + z / 4)) ∧
        rd st.1 (base + 320 + z) = c4444_to_c565 (gfx_output (st0.2 + z / 4)))
    (forLoop (SCREEN_WIDTH / 4) 1 (fun col st =>
      let c16 := c4444_to_c565 (gfx_output st.2)
      let c32 := ((c16 <<< 16) % 2 ^ 32) ||| c16
      let x := col * 4
      let b := store32 st.1 (base + x) c32
      let b := store32 b (base + x + 2) c32
      let b := store32 b (base + SCREEN_WIDTH + x) c32
      let b := store32 b (base + SCREEN_WIDTH + x + 2) c32
      (b, st.2 + 1)) (SCREEN_WIDTH / 4) 0 st0) := by
  refine forLoop_run (SCREEN_WIDTH / 4) 1 80 (SCREEN_WIDTH / 4) _
    (fun m (st : Array Nat × Nat) =>
      st.2 = st0.2 + m ∧ st.1.size = st0.1.size ∧
      (∀ k, k < base ∨ base + 640 ≤ k → rd st.1 k = rd st0.1 k) ∧
      ∀ z, z < 4 * m →
        rd st.1 (base + z) = c4444_to_c565 (gfx_output (st0.2 + z / 4)) ∧
        rd st.1 (base + 320 + z) = c4444_to_c565 (gfx_output (st0.2 + z / 4)))
    st0 (by decide) (by decide) (by decide) ⟨rfl, rfl, fun _ _ => rfl, fun z hz => ?_⟩ ?_
  · omega
  · intro m st hm ⟨hp, hs, hframe, hdone⟩
    have hc := c4444_to_c565_lt (gfx_output st.2)
    have rdall : ∀ k, rd (store32 (store32 (store32 (store32 st.1 (base + m * 4)
          (((c4444_to_c565 (gfx_output st.2) <<< 16) % 2 ^ 32) ||| c4444_to_c565 (gfx_output st.2)))
          (base + m * 4 + 2)
          (((c4444_to_c565 (gfx_output st.2) <<< 16) % 2 ^ 32) ||| c4444_to_c565 (gfx_output st.2)))
          (base + 320 + m * 4)
          (((c4444_to_c565 (gfx_output st.2) <<< 16) % 2 ^ 32) ||| c4444_to_c565 (gfx_output st.2)))
          (base + 320 + m * 4 + 2)
          (((c4444_to_c565 (gfx_output st.2) <<< 16) % 2 ^ 32) ||| c4444_to_c565 (gfx_output st.2))) k
        = if (base + 4 * m ≤ k ∧ k < base + 4 * m + 4) ∨
            (base + 320 + 4 * m ≤ k ∧ k < base + 320 + 4 * m + 4)
          then c4444_to_c565 (gfx_output st.2) else rd st.1 k := by
      intro k
      rw [rd_store32 _ _ _ _ (by simp only [size_store32]; omega) hc,
        rd_store32 _ _ _ _ (by simp only [size_store32]; omega) hc,
        rd_store32 _ _ _ _ (by simp only [size_store32]; omega) hc,
        rd_store32 _ _ _ _ (by omega) hc]
      split_ifs <;> first | rfl | (exfalso; omega)
    simp only [SCREEN_WIDTH, Nat.mul_one]
    refine ⟨by omega, by simp only [size_store32]; exact hs, fun k hk => ?_, fun z hz => ?_⟩
    · rw [rdall k, if_neg (by omega)]
      exact hframe k hk
    · rw [rdall, rdall]
      by_cases h4 : z < 4 * m
      · rw [if_neg (by omega), if_neg (by omega)]
        exact hdone z h4
      · have e : z / 4 = m := by omega
        rw [if_pos (by omega), if_pos (by omega), e, hp]
        exact ⟨rfl, rfl⟩

/-- The two row copies that end a pass of the row loop of the 80p branch:
with rows `4R` and `4R + 1` filled, rows `4R + 2` and `4R + 3` become copies
of row `4R`, which completes the first `4 (R + 1)` rows. -/
theorem swap80_copies (gfx_output : Nat → Nat) (R : Nat) (b0 b1 : Array Nat)
    (hR : R < 60) (hs : b0.size = 76800)
    (hdone : ∀ k, k < R * 1280 →
      rd b0 k = c4444_to_c565 (gfx_output (k / 320 / 4 * 80 + k % 320 / 4)))
    (c2 : b1.size = b0.size)
    (c3 : ∀ k, k < R * 4 * 320 ∨ R * 4 * 320 + 640 ≤ k → rd b1 k = rd b0 k)
    (c4 : ∀ z, z < 320 →
      rd b1 (R * 4 * 320 + z) = c4444_to_c565 (gfx_output (80 * R + z / 4)) ∧
      rd b1 (R * 4 * 320 + 320 + z) = c4444_to_c565 (gfx_output (80 * R + z / 4))) :
    (memcpy16 (memcpy16 b1 (R * 4 * 320 + 2 * 320) (R * 4 * 320) (320 * 2))
        (R * 4 * 320 + 3 * 320) (R * 4 * 320) (320 * 2)).size = 76800 ∧
      ∀ k, k < (R + 1) * 1280 →
        rd (memcpy16 (memcpy16 b1 (R * 4 * 320 + 2 * 320) (R * 4 * 320) (320 * 2))
            (R * 4 * 320 + 3 * 320) (R * 4 * 320) (320 * 2)) k
          = c4444_to_c565 (gfx_output (k / 320 / 4 * 80 + k % 320 / 4)) := by
  obtain ⟨m1, m2⟩ := memcpy16_spec b1 (R * 4 * 320 + 2 * 320) (R * 4 * 320) (320 * 2)
    (by omega)
  obtain ⟨n1, n2⟩ := memcpy16_spec (memcpy16 b1 (R * 4 * 320 + 2 * 320) (R * 4 * 320) (320 * 2))
    (R * 4 * 320 + 3 * 320) (R * 4 * 320) (320 * 2) (by omega)
  have e320 : 320 * 2 / 2 = 320 := by decide
  rw [e320] at m2 n2
  refine ⟨by omega, fun k hk => ?_⟩
  rw [n2 k]
  by_cases h3 : R * 4 * 320 + 3 * 320 ≤ k ∧ k < R * 4 * 320 + 3 * 320 + 320
  · rw [if_pos h3, m2, if_neg (by omega),
      (c4 (k - (R * 4 * 320 + 3 * 320)) (by omega)).1]
    exact congrArg (fun t => c4444_to_c565 (gfx_output t)) (by omega)
  · rw [if_neg h3, m2 k]
    by_cases h2 : R * 4 * 320 + 2 * 320 ≤ k ∧ k < R * 4 * 320 + 2 * 320 + 320
    · rw [if_pos h2, (c4 (k - (R * 4 * 320 + 2 * 320)) (by omega)).1]
      exact congrArg (fun t => c4444_to_c565 (gfx_output t)) (by omega)
    · rw [if_neg h2]
      by_cases h0 : k < R * 4 * 320
      · rw [c3 k (Or.inl h0)]
        exact hdone k (by omega)
      · by_cases h1 : k < R * 4 * 320 + 320
        · have e : k = R * 4 * 320 + (k - R * 4 * 320) := by omega
          rw [e, (c4 (k - R * 4 * 320) (by omega)).1]
          exact congrArg (fun t => c4444_to_c565 (gfx_output t)) (by omega)
        · have e : k = R * 4 * 320 + 320 + (k - (R * 4 * 320 + 320)) := by omega
          rw [e, (c4 (k - (R * 4 * 320 + 320)) (by omega)).2]
          exact congrArg (fun t => c4444_to_c565 (gfx_output t)) (by omega)

/-- The 80p branch: every element of the buffer holds the converted source
pixel of its 4-by-4 block. -/
theorem swap80_spec (gfx_output : Nat → Nat) (buffer : Array Nat)
    (hsz : buffer.size = 76800) (j : Nat) (hj : j < 76800) :
    rd (swap80 gfx_output buffer).1 j
      = c4444_to_c565 (gfx_output (j / 320 / 4 * 80 + j % 320 / 4)) := by
  have key : (fun (st : Array Nat × Nat) =>
      st.2 = 80 * 60 ∧ st.1.size = 76800 ∧
      ∀ k, k < 60 * 1280 →
        rd st.1 k = c4444_to_c565 (gfx_output (k / 320 / 4 * 80 + k % 320 / 4)))
      (swap80 gfx_output buffer) := by
    unfold swap80
    refine forLoop_run (SCREEN_HEIGHT / 4) 1 60 (SCREEN_HEIGHT / 4) _
      (fun R (st : Array Nat × Nat) =>
        st.2 = 80 * R ∧ st.1.size = 76800 ∧
        ∀ k, k < R * 1280 →
          rd st.1 k = c4444_to_c565 (gfx_output (k / 320 / 4 * 80 + k % 320 / 4)))
      (buffer, 0) (by decide) (by decide) (by decide) ⟨rfl, hsz, fun k hk => ?_⟩ ?_
    · omega
    · intro R st hR ⟨hp, hs, hdone⟩
      obtain ⟨c1, c2, c3, c4⟩ :=
        swap80_columns gfx_output (R * 1 * 4 * SCREEN_WIDTH) st
          (by simp only [SCREEN_WIDTH]; omega)
      simp only [SCREEN_WIDTH, Nat.mul_one] at c1 c2 c3 c4
      rw [hp] at c1 c4
      obtain ⟨d1, d2⟩ := swap80_copies gfx_output R st.1 _ hR hs hdone c2 c3 c4
      simp only [SCREEN_WIDTH, Nat.mul_one]
      exact ⟨by rw [c1]; omega, d1, d2⟩
  exact key.2.2 j hj

/-- One pass of the column loop of the 120p branch: source pixel `p0 + q`
fills elements `2q` and `2q + 1` of the row at `base`. -/
theorem swap120_columns (gfx_output : Nat → Nat) (base : Nat) (st0 : Array Nat × Nat)
    (hsz : base + 320 ≤ st0.1.size) :
    (fun (st : Array Nat × Nat) =>
      st.2 = st0.2 + 160 ∧ st.1.size = st0.1.size ∧
      (∀ k, k < base ∨ base + 320 ≤ k → rd st.1 k = rd st0.1 k) ∧
      ∀ z, z < 320 → rd st.1 (base + z) = c4444_to_c565 (gfx_output (st0.2 + z / 2)))
    (forLoop HALF_WIDTH 2 (fun col st =>
      let c16a := c4444_to_c565 (gfx_output st.2)
      let c16b := c4444_to_c565 (gfx_output (st.2 + 1))
      let pair_a := ((c16a <<< 16) % 2 ^ 32) ||| c16a
      let pair_b := ((c16b <<< 16) % 2 ^ 32) ||| c16b
      let x := col * 2
      let b := store32 st.1 (base + x) pair_a
      let b := store32 b (base + x + 2) pair_b
      (b, st.2 + 2)) HALF_WIDTH 0 st0) := by
  refine forLoop_run HALF_WIDTH 2 80 HALF_WIDTH _
    (fun m (st : Array Nat × Nat) =>
      st.2 = st0.2 + 2 * m ∧ st.1.size = st0.1.size ∧
      (∀ k, k < base ∨ base + 320 ≤ k → rd st.1 k = rd st0.1 k) ∧
      ∀ z, z < 4 * m → rd st.1 (base + z) = c4444_to_c565 (gfx_output (st0.2 + z / 2)))
    st0 (by decide) (by decide) (by decide) ⟨rfl, rfl, fun _ _ => rfl, fun z hz => ?_⟩ ?_
  · omega
  · intro m st hm ⟨hp, hs, hframe, hdone⟩
    have hca := c4444_to_c565_lt (gfx_output st.2)
    have hcb := c4444_to_c565_lt (gfx_output (st.2 + 1))
    have rdall : ∀ k, rd (store32 (store32 st.1 (base + m * 2 * 2)
          (((c4444_to_c565 (gfx_output st.2) <<< 16) % 2 ^ 32) ||| c4444_to_c565 (gfx_output st.2)))
          (base + m * 2 * 2 + 2)
          (((c4444_to_c565 (gfx_output (st.2 + 1)) <<< 16) % 2 ^ 32)
            ||| c4444_to_c565 (gfx_output (st.2 + 1)))) k
        = if base + 4 * m + 2 ≤ k ∧ k < base + 4 * m + 4
          then c4444_to_c565 (gfx_output (st.2 + 1))
          else if base + 4 * m ≤ k ∧ k < base + 4 * m + 2
          then c4444_to_c565 (gfx_output st.2) else rd st.1 k := by
      intro k
      rw [rd_store32 _ _ _ _ (by simp only [size_store32]; omega) hcb,
        rd_store32 _ _ _ _ (by omega) hca]
      split_ifs <;> first | rfl | (exfalso; omega)
    dsimp only
    refine ⟨by omega, by simp only [size_store32]; exact hs, fun k hk => ?_, fun z hz => ?_⟩
    · rw [rdall k, if_neg (by omega), if_neg (by omega)]
      exact hframe k hk
    · rw [rdall]
      by_cases h4 : z < 4 * m
      · rw [if_neg (by omega), if_neg (by omega)]
        exact hdone z h4
      · by_cases h2 : z < 4 * m + 2
        · rw [if_neg (by omega), if_pos (by omega), hp]
          exact congrArg (fun t => c4444_to_c565 (gfx_output t)) (by omega)
        · rw [if_pos (by omega), hp]
          exact congrArg (fun t => c4444_to_c565 (gfx_output t)) (by omega)

/-- The row copy that ends a pass of the row loop of the 120p branch: with
row `2R` filled, row `2R + 1` becomes a copy of it, which completes the first
`2 (R + 1)` rows. -/
theorem swap120_copy (gfx_output : Nat → Nat) (R : Nat) (b0 b1 : Array Nat)
    (hR : R < 120) (hs : b0.size = 76800)
    (hdone : ∀ k, k < R * 640 →
      rd b0 k = c4444_to_c565 (gfx_output (k / 320 / 2 * 160 + k % 320 / 2)))
    (c2 : b1.size = b0.size)
    (c3 : ∀ k, k < R * 2 * 320 ∨ R * 2 * 320 + 320 ≤ k → rd b1 k = rd b0 k)
    (c4 : ∀ z, z < 320 →
      rd b1 (R * 2 * 320 + z) = c4444_to_c565 (gfx_output (160 * R + z / 2))) :
    (memcpy16 b1 (R * 2 * 320 + 320) (R * 2 * 320) (320 * 2)).size = 76800 ∧
      ∀ k, k < (R + 1) * 640 →
        rd (memcpy16 b1 (R * 2 * 320 + 320) (R * 2 * 320) (320 * 2)) k
          = c4444_to_c565 (gfx_output (k / 320 / 2 * 160 + k % 320 / 2)) := by
  obtain ⟨m1, m2⟩ := memcpy16_spec b1 (R * 2 * 320 + 320) (R * 2 * 320) (320 * 2)
    (by omega)
  have e320 : 320 * 2 / 2 = 320 := by decide
  rw [e320] at m2
  refine ⟨by omega, fun k hk => ?_⟩
  rw [m2 k]
  by_cases h1 : R * 2 * 320 + 320 ≤ k ∧ k < R * 2 * 320 + 320 + 320
  · rw [if_pos h1, c4 (k - (R * 2 * 320 + 320)) (by omega)]
    exact congrArg (fun t => c4444_to_c565 (gfx_output t)) (by omega)
  · rw [if_neg h1]
    by_cases h0 : k < R * 2 * 320
    · rw [c3 k (Or.inl h0)]
      exact hdone k (by omega)
    · have e : k = R * 2 * 320 + (k - R * 2 * 320) := by omega
      rw [e, c4 (k - R * 2 * 320) (by omega)]
      exact congrArg (fun t => c4444_to_c565 (gfx_output t)) (by omega)

/-- The 120p branch: every element of the buffer holds the converted source
pixel of its 2-by-2 block. -/
theorem swap120_spec (gfx_output : Nat → Nat) (buffer : Array Nat)
    (hsz : buffer.size = 76800) (j : Nat) (hj : j < 76800) :
    rd (swap120 gfx_output buffer).1 j
      = c4444_to_c565 (gfx_output (j / 320 / 2 * 160 + j % 320 / 2)) := by
  have key : (fun (st : Array Nat × Nat) =>
      st.2 = 160 * 120 ∧ st.1.size = 76800 ∧
      ∀ k, k < 120 * 640 →
        rd st.1 k = c4444_to_c565 (gfx_output (k / 320 / 2 * 160 + k % 320 / 2)))
      (swap120 gfx_output buffer) := by
    unfold swap120
    refine forLoop_run (SCREEN_HEIGHT / 2) 1 120 (SCREEN_HEIGHT / 2) _
      (fun R (st : Array Nat × Nat) =>
        st.2 = 160 * R ∧ st.1.size = 76800 ∧
        ∀ k, k < R * 640 →
          rd st.1 k = c4444_to_c565 (gfx_output (k / 320 / 2 * 160 + k % 320 / 2)))
      (buffer, 0) (by decide) (by decide) (by decide) ⟨rfl, hsz, fun k hk => ?_⟩ ?_
    · omega
    · intro R st hR ⟨hp, hs, hdone⟩
      obtain ⟨c1, c2, c3, c4⟩ :=
        swap120_columns gfx_output (R * 1 * 2 * SCREEN_WIDTH) st
          (by simp only [SCREEN_WIDTH]; omega)
      simp only [SCREEN_WIDTH, Nat.mul_one] at c1 c2 c3 c4
      rw [hp] at c1 c4
      obtain ⟨d1, d2⟩ := swap120_copy gfx_output R st.1 _ hR hs hdone c2 c3 c4
      simp only [SCREEN_WIDTH, Nat.mul_one]
      exact ⟨by rw [c1]; omega, d1, d2⟩
  exact key.2.2 j hj

/-- The full-resolution branch: element `j` is the converted source pixel
`j`. -/
theorem swapFull_spec (gfx_output : Nat → Nat) (buffer : Array Nat)
    (hsz : buffer.size = 76800) (j : Nat) (hj : j < 76800) :
    rd (swapFull gfx_output buffer) j = c4444_to_c565 (gfx_output j) := by
  have key : (fun (b : Array Nat) =>
      b.size = 76800 ∧ ∀ k, k < 76800 → rd b k = c4444_to_c565 (gfx_output k))
      (swapFull gfx_output buffer) := by
    unfold swapFull
    refine forLoop_run (SCREEN_WIDTH * SCREEN_HEIGHT) 1 76800 (SCREEN_WIDTH * SCREEN_HEIGHT) _
      (fun m (b : Array Nat) =>
        b.size = 76800 ∧ ∀ k, k < m → rd b k = c4444_to_c565 (gfx_output k))
      buffer (by decide) (by decide) (by decide) ⟨hsz, fun k hk => ?_⟩ ?_
    · omega
    · intro m b hm ⟨hs, hdone⟩
      refine ⟨by rw [size_wr]; exact hs, fun k hk => ?_⟩
      rw [rd_wr _ _ _ _ (by omega), Nat.mul_one]
      by_cases h : k = m
      · rw [if_pos h, h]
      · rw [if_neg h]
        exact hdone k (by omega)
  exact key.2 j hj

/-- C16. With `SCREEN_WIDTH = 320` and `SCREEN_HEIGHT = 240`, and `k` the
downscale factor (4 when `config80pMode` is set, otherwise 2 when
`config120pMode` is set, otherwise 1), the buffer that `nsp_swap_buffers_end`
builds holds at `y * 320 + x`, for every `x < 320` and `y < 240`, the converted
source pixel `(y / k) * (320 / k) + x / k`, whatever the buffer held before;
the source position `(x / k, y / k)` lies inside the `(width, height)` that
`nsp_get_dimensions` reports, which is `(320 / k, 240 / k)`, and every source
pixel `(u, v)` of that image is shown at `(k * u, k * v)`. -/
theorem nsp_swap_buffers_end_blocks (config80pMode config120pMode : Bool)
    (gfx_output : Nat → Nat) (buffer : Array Nat)
    (hsz : buffer.size = SCREEN_WIDTH * SCREEN_HEIGHT)
    (k : Nat) (hk : k = if config80pMode then 4 else if config120pMode then 2 else 1) :
    nsp_get_dimensions config80pMode config120pMode = (320 / k, 240 / k) ∧
      (∀ x y, x < 320 → y < 240 →
        rd (nsp_swap_buffers_end config80pMode config120pMode gfx_output buffer) (y * 320 + x)
            = c4444_to_c565 (gfx_output ((y / k) * (320 / k) + x / k)) ∧
          x / k < (nsp_get_dimensions config80pMode config120pMode).1 ∧
          y / k < (nsp_get_dimensions config80pMode config120pMode).2) ∧
      ∀ u v, u < (nsp_get_dimensions config80pMode config120pMode).1 →
        v < (nsp_get_dimensions config80pMode config120pMode).2 →
        rd (nsp_swap_buffers_end config80pMode config120pMode gfx_output buffer)
            (k * v * 320 + k * u)
          = c4444_to_c565 (gfx_output
              (v * (nsp_get_dimensions config80pMode config120pMode).1 + u)) := by
  have hs : buffer.size = 76800 := hsz.trans (by decide)
  cases config80pMode
  · cases config120pMode
    · have hk1 : k = 1 := hk
      have hd : nsp_get_dimensions false false = (320, 240) := by decide
      have hsw : nsp_swap_buffers_end false false gfx_output buffer
          = swapFull gfx_output buffer := by
        simp only [nsp_swap_buffers_end, Bool.false_eq_true, if_false]
      rw [hd, hsw, hk1]
      simp only [Nat.div_one]
      refine ⟨trivial, fun x y hx hy => ⟨?_, hx, hy⟩, fun u v hu hv => ?_⟩
      · rw [swapFull_spec gfx_output buffer hs _ (by omega)]
      · rw [swapFull_spec gfx_output buffer hs _ (by omega)]
        exact congrArg (fun t => c4444_to_c565 (gfx_output t)) (by omega)
    · have hk2 : k = 2 := hk
      have hd : nsp_get_dimensions false true = (160, 120) := by decide
      have hsw : nsp_swap_buffers_end false true gfx_output buffer
          = (swap120 gfx_output buffer).1 := by
        simp only [nsp_swap_buffers_end, Bool.false_eq_true, if_false, if_true]
      rw [hd, hsw, hk2]
      refine ⟨by decide, fun x y hx hy => ⟨?_, ?_, ?_⟩, fun u v hu hv => ?_⟩
      · rw [swap120_spec gfx_output buffer hs _ (by omega)]
        exact congrArg (fun t => c4444_to_c565 (gfx_output t)) (by omega)
      · show x / 2 < 160
        omega
      · show y / 2 < 120
        omega
      · have hu2 : u < 160 := hu
        have hv2 : v < 120 := hv
        rw [swap120_spec gfx_output buffer hs _ (by omega)]
        exact congrArg (fun t => c4444_to_c565 (gfx_output t)) (by omega)
  · have hk4 : k = 4 := hk
    have hd : nsp_get_dimensions true config120pMode = (80, 60) := by
      cases config120pMode <;> decide
    have hsw : nsp_swap_buffers_end true config120pMode gfx_output buffer
        = (swap80 gfx_output buffer).1 := by
      simp only [nsp_swap_buffers_end, if_true]
    rw [hd, hsw, hk4]
    refine ⟨by decide, fun x y hx hy => ⟨?_, ?_, ?_⟩, fun u v hu hv => ?_⟩
    · rw [swap80_spec gfx_output buffer hs _ (by omega)]
      exact congrArg (fun t => c4444_to_c565 (gfx_output t)) (by omega)
    · show x / 4 < 80
      omega
    · show y / 4 < 60
      omega
    · have hu2 : u < 80 := hu
      have hv2 : v < 60 := hv
      rw [swap80_spec gfx_output buffer hs _ (by omega)]
      exact congrArg (fun t => c4444_to_c565 (gfx_output t)) (by omega)

/-- C16 in 80p mode on a cleared buffer and the source image whose pixel `i`
is `8 * i`: the element at `x = 5`, `y = 9` shows source pixel
`2 * 80 + 1 = 161`, which converts to `0x0820`. -/
theorem nsp_swap_buffers_end_blocks_witness :
    (mkArray 76800 0).size = SCREEN_WIDTH * SCREEN_HEIGHT ∧
      (4 = if true then 4 else if false then 2 else 1) ∧
      rd (nsp_swap_buffers_end true false (fun i => 8 * i) (mkArray 76800 0)) (9 * 320 + 5)
        = c4444_to_c565 (8 * (9 / 4 * (320 / 4) + 5 / 4)) ∧
      c4444_to_c565 (8 * (9 / 4 * (320 / 4) + 5 / 4)) = 0x0820 :=
  ⟨Array.size_mkArray 76800 0, rfl,
    ((nsp_swap_buffers_end_blocks true false (fun i => 8 * i) (mkArray 76800 0)
      (Array.size_mkArray 76800 0) 4 rfl).2.1 5 9 (by decide) (by decide)).1,
    by decide⟩

end GfxNsp
